import Mathlib

/-!
Verification development for the local-linker tool (lume-io/local-linker).

This file gives a shallow embedding, in Lean 4, of the dependency-resolution
and build-ordering core found in the repository sources:

  * `src/config.ts`    — `parsePackageLine`, `readConfig`
  * `src/dependency-graph.ts` (bundled into `src/index.ts`)
                       — `getPackageInfo`, `buildDependencyGraph`,
                         `getTopologicalOrder` with its inner `visit`
  * `src/builder.ts`   — `buildPackage`
  * `src/linker.ts`    — `linkPackage`, `linkAllPackages`,
                         `linkRecursiveDependencies`, `processPackageRecursively`

Effectful collaborators (file system, package-manager commands, nested-config
reads) are modelled by an `Env` record of pure functions; logger output that
claims refer to is modelled by returning event lists.  JavaScript's unbounded
recursion is modelled with an explicit fuel parameter; theorems show the
canonical fuel is sufficient where required.
-/

namespace LocalLinker

/-! ## String utilities (JS `split` / `trim` / regex behaviour on char lists) -/

/-- JS `\s` whitespace class, restricted to the characters that can occur in
config lines. -/
def isWsChar (c : Char) : Bool :=
  c == ' ' || c == '\t' || c == '\n' || c == '\r' || c == '\x0b' || c == '\x0c'

/-- Drop leading JS-whitespace. -/
def dropWs (l : List Char) : List Char := l.dropWhile isWsChar

/-- JS `String.prototype.trim` on a char list. -/
def trimChars (l : List Char) : List Char :=
  ((dropWs l).reverse.dropWhile isWsChar).reverse

/-- JS `String.prototype.split(sep)` for a one-character separator. -/
def splitOnSep (sep : Char) : List Char → List (List Char)
  | [] => [[]]
  | c :: rest =>
    let r := splitOnSep sep rest
    if c = sep then [] :: r
    else
      match r with
      | h :: t => (c :: h) :: t
      | [] => [[c]]

/-- If `needle` is a prefix of the second argument, return the remainder. -/
def dropLit : List Char → List Char → Option (List Char)
  | [], hay => some hay
  | _ :: _, [] => none
  | n :: ns, h :: hs => if n = h then dropLit ns hs else none

/-- JS `String.prototype.replace(needle, "")` with a plain-string needle:
remove the first occurrence only. -/
def replaceFirstAux (needle : List Char) : List Char → List Char
  | [] => []
  | c :: rest =>
    match dropLit needle (c :: rest) with
    | some after => after
    | none => c :: replaceFirstAux needle rest

/-! ## The two regexes of `parsePackageLine` (src/config.ts)

`/^(.*?)\s+\[(.*?)\](?:\s+|$)/` and `/\s+watch:\[(.*?)\](?:\s+|$)/`,
with JavaScript's lazy/greedy backtracking semantics specialised to these
patterns ( `.` does not match a newline; `\s+` before a literal can only
succeed at the end of the maximal whitespace run). -/

/-- Search for the lazy group `(.*?)\]` followed by `(?:\s+|$)`: the first
`']'` whose successor is whitespace or end of input closes the group.
Returns (group contents, rest after the `']'`). `.` cannot cross a newline. -/
def findClose : List Char → Option (List Char × List Char)
  | [] => none
  | c :: rest =>
    if c = ']' && (rest.isEmpty || isWsChar (rest.headD ' ')) then some ([], rest)
    else if c = '\n' then none
    else
      match findClose rest with
      | some (g, r) => some (c :: g, r)
      | none => none

/-- After at least one whitespace char was consumed: consume the rest of the
whitespace run, then require `'['` and a lazily-closed group. Returns the
bracketed group. -/
def afterWsBracket : List Char → Option (List Char)
  | [] => none
  | c :: rest =>
    if isWsChar c then afterWsBracket rest
    else if c = '[' then (findClose rest).map Prod.fst
    else none

/-- Leftmost match of `^(.*?)\s+\[(.*?)\](?:\s+|$)`: group 1 accumulates in
`acc` (reversed) while the tail fails to match `\s+\[(.*?)\](?:\s+|$)`.
Returns (group1, group2). -/
def regexBuildGo : List Char → List Char → Option (List Char × List Char)
  | _, [] => none
  | acc, c :: rest =>
    if isWsChar c then
      match afterWsBracket rest with
      | some g2 => some (acc.reverse, g2)
      | none => if c = '\n' then none else regexBuildGo (c :: acc) rest
    else if c = '\n' then none
    else regexBuildGo (c :: acc) rest

/-- Literal `watch:[`. -/
def litWatch : List Char → Option (List Char)
  | 'w' :: 'a' :: 't' :: 'c' :: 'h' :: ':' :: '[' :: rest => some rest
  | _ => none

/-- After ≥ 1 whitespace chars (collected reversed in `acc`): consume further
whitespace, then `watch:[`, group, `']'`, then the greedy `(?:\s+|$)` tail.
Returns (whole match, group). -/
def watchAfterWs : List Char → List Char → Option (List Char × List Char)
  | _, [] => none
  | acc, c :: rest =>
    if isWsChar c then watchAfterWs (c :: acc) rest
    else
      match litWatch (c :: rest) with
      | none => none
      | some afterLit =>
        match findClose afterLit with
        | none => none
        | some (g, after) =>
          let trail := after.takeWhile isWsChar
          some (acc.reverse ++ ('w' :: 'a' :: 't' :: 'c' :: 'h' :: ':' :: '[' :: g)
                  ++ [']'] ++ trail, g)

/-- Try `\s+watch:\[(.*?)\](?:\s+|$)` anchored at the current position. -/
def watchTry : List Char → Option (List Char × List Char)
  | [] => none
  | c :: rest => if isWsChar c then watchAfterWs [c] rest else none

/-- Leftmost (unanchored) match of `/\s+watch:\[(.*?)\](?:\s+|$)/`.
Returns (match[0], group 1). -/
def regexWatchGo : List Char → Option (List Char × List Char)
  | [] => none
  | c :: rest =>
    match watchTry (c :: rest) with
    | some r => some r
    | none => regexWatchGo rest

/-! ## Config data model and `parsePackageLine` (src/config.ts) -/

/-- Embedding of `PackageConfig` from src/types.ts. -/
structure PackageConfig where
  path : String
  buildCommand : Option String := none
  watchPatterns : Option (List String) := none
deriving DecidableEq, Repr

/-- Config filename (src/config.ts `CONFIG_FILE`). -/
def CONFIG_FILE : String := ".localpackages"

/-- Embedding of `parsePackageLine` from src/config.ts:
split on `'='`, trim both parts, require exactly two nonempty parts; then
apply the build-command regex and the watch-pattern regex as the source does. -/
def parsePackageLine (line : String) : Option (String × PackageConfig) :=
  let parts := (splitOnSep '=' line.data).map trimChars
  match parts with
  | [p0, p1] =>
    if p0.isEmpty || p1.isEmpty then none
    else
      let packageName := String.mk p0
      let packageInfo := p1
      let pathAndBuild :=
        match regexBuildGo [] packageInfo with
        | some (g1, g2) =>
          let bc := trimChars g2
          (trimChars g1, if bc.isEmpty then none else some (String.mk bc))
        | none => (packageInfo, none)
      match regexWatchGo packageInfo with
      | some (m0, g1) =>
        some (packageName,
          { path := String.mk (trimChars (replaceFirstAux m0 pathAndBuild.1)),
            buildCommand := pathAndBuild.2,
            watchPatterns :=
              some (((splitOnSep ',' g1).map (fun p => String.mk (trimChars p)))) })
      | none =>
        some (packageName,
          { path := String.mk pathAndBuild.1,
            buildCommand := pathAndBuild.2,
            watchPatterns := none })
  | _ => none

/-! ## `readConfig` (src/config.ts)

The file system is a parameter: `none` models a missing `.localpackages`
file, `some text` its contents.  The `try`/`catch` of the source cannot fire
in this pure model; log lines the source prints are returned as
(message, color) pairs. -/

/-- JS-object insert: overwrite in place if the key exists, else append.
Models `acc[packageName] = packageConfig` and `Map.prototype.set`. -/
def mapSet {β : Type} (m : List (String × β)) (k : String) (v : β) :
    List (String × β) :=
  if (m.map Prod.fst).contains k then
    m.map (fun p => if p.1 = k then (k, v) else p)
  else m ++ [(k, v)]

/-- First-match association lookup: JS `Map.prototype.get` / object indexing. -/
def lookupKey {β : Type} (k : String) : List (String × β) → Option β
  | [] => none
  | p :: rest => if p.1 = k then some p.2 else lookupKey k rest

def noConfigMsg : String :=
  "No .localpackages file found. Create one to specify local dependencies."

def configFormatMsg : String :=
  "Format: package-name = /path/to/package [build-command] [watch:[pattern1,pattern2]]"

def noPackagesMsg : String := "No packages defined in .localpackages"

def foundPackagesMsg (n : Nat) : String :=
  "Found " ++ toString n ++ " local packages in .localpackages"

/-- A config line survives the source's filter when its trim is nonempty and
it does not start with `#`. -/
def keepLine (line : String) : Bool :=
  !(trimChars line.data).isEmpty &&
    !(match line.data with | '#' :: _ => true | _ => false)

/-- The line pipeline of `readConfig`: split on newlines, drop blank and
`#` lines, parse each surviving line, accumulate into the object. -/
def parseConfigText (text : String) : List (String × PackageConfig) :=
  (((splitOnSep '\n' text.data).map String.mk).filter keepLine).foldl
    (fun acc line =>
      match parsePackageLine line with
      | some r => mapSet acc r.1 r.2
      | none => acc) []

/-- Embedding of `readConfig` from src/config.ts over the modelled file system. -/
def readConfig (content : Option String) :
    List (String × PackageConfig) × List (String × String) :=
  match content with
  | none => ([], [(noConfigMsg, "yellow"), (configFormatMsg, "yellow")])
  | some text =>
    let config := parseConfigText text
    if config.length = 0 then (config, [(noPackagesMsg, "yellow")])
    else (config, [(foundPackagesMsg config.length, "green")])

/-! ## Dependency graph (src/dependency-graph.ts, bundled into src/index.ts) -/

/-- Embedding of `PackageInfo` from src/types.ts. -/
structure PackageInfo where
  name : String
  path : String
  dependencies : List String
  devDependencies : List String
  peerDependencies : List String
deriving DecidableEq, Repr

/-- The fields of a parsed `package.json` that the sources consult:
the key sets of the three dependency objects and `scripts.build`
(`none` when `scripts` is absent or has no `build` entry). -/
structure PackageJson where
  dependencies : List String
  devDependencies : List String
  peerDependencies : List String
  scriptsBuild : Option String
deriving DecidableEq, Repr

/-- Effectful collaborators of the core, as pure functions:
path handling (`path.isAbsolute`, `path.resolve`, `path.join`), the file
system, the package-manager command runner of src/package-manager.ts, and
the nested-config reader used by the recursive expander. -/
structure Env where
  cwd : String
  isAbsolute : String → Bool
  resolvePath : String → String → String
  joinPath : String → String → String
  fileExists : String → Bool
  parseJson : String → Option PackageJson
  runBuild : String → String → Option String → Bool
  createGlobalLink : String → String → Bool
  linkToProject : String → Bool
  readConfigIn : String → List (String × PackageConfig)

/-- Embedding of `getPackageInfo` from src/dependency-graph.ts: resolve the package path,
require a parseable `package.json`, and keep the key lists of the three
dependency objects. `none` models the `null` returns (missing or unparseable
manifest). -/
def getPackageInfo (env : Env) (packageName packagePath : String) :
    Option PackageInfo :=
  let absPath :=
    if env.isAbsolute packagePath then packagePath
    else env.resolvePath env.cwd packagePath
  let packageJsonPath := env.joinPath absPath "package.json"
  if !env.fileExists packageJsonPath then none
  else
    match env.parseJson packageJsonPath with
    | none => none
    | some packageJson =>
      some { name := packageName
             path := absPath
             dependencies := packageJson.dependencies
             devDependencies := packageJson.devDependencies
             peerDependencies := packageJson.peerDependencies }

/-- One iteration of the graph-building loop: insert the package when its
manifest could be read, skip it otherwise. -/
def buildGraphStep (env : Env) (graph : List (String × PackageInfo))
    (p : String × PackageConfig) : List (String × PackageInfo) :=
  match getPackageInfo env p.1 p.2.path with
  | some info => mapSet graph p.1 info
  | none => graph

/-- Embedding of `buildDependencyGraph` from src/dependency-graph.ts: a name → PackageInfo
map (insertion-ordered, as a JS `Map`) containing the declared packages whose
manifest could be read. -/
def buildDependencyGraph (env : Env)
    (localPackages : List (String × PackageConfig)) :
    List (String × PackageInfo) :=
  localPackages.foldl (buildGraphStep env) []

/-! ## Order resolver: `getTopologicalOrder` (src/dependency-graph.ts)

The source's `visit` closure mutates four collections (`temp`, `visited`,
`order` and the logger's warning stream); here they are threaded as a
`VisitState`.  JavaScript recursion is modelled with a fuel parameter; the
fuel-adequacy theorem below shows any fuel above the graph size gives the
same result, so `getTopologicalOrder` fixes fuel `graph.length + 1`. -/

structure VisitState where
  temp : List String
  visited : List String
  order : List String
  warnings : List String
deriving DecidableEq, Repr

/-- All manifest dependency names of a node, three kinds concatenated
(source: `allDeps`). -/
def allDeps (node : PackageInfo) : List String :=
  node.dependencies ++ node.devDependencies ++ node.peerDependencies

/-- The `visit` closure of `getTopologicalOrder`:
cycle warning when `name` is in-progress, early return when done, otherwise
mark in-progress, visit the local dependencies, then mark done and append to
the order. -/
def visit (g : List (String × PackageInfo)) : Nat → String → VisitState → VisitState
  | 0, _, s => s
  | fuel + 1, name, s =>
    if name ∈ s.temp then { s with warnings := s.warnings ++ [name] }
    else if name ∈ s.visited then s
    else
      let s1 : VisitState := { s with temp := s.temp ++ [name] }
      let s2 :=
        match lookupKey name g with
        | some node =>
          ((allDeps node).filter (fun d => (lookupKey d g).isSome)).foldl
            (fun st d => visit g fuel d st) s1
        | none => s1
      { s2 with temp := s2.temp.erase name,
                visited := s2.visited ++ [name],
                order := s2.order ++ [name] }

/-- The dependency loop inside `visit`, as a named function (definitionally
the `foldl` in `visit`). -/
def visitList (g : List (String × PackageInfo)) (fuel : Nat)
    (ds : List String) (s : VisitState) : VisitState :=
  ds.foldl (fun st d => visit g fuel d st) s

/-- The top-level loop of `getTopologicalOrder`:
`for (const name of graph.keys()) if (!visited.has(name)) visit(name)`. -/
def visitAllFrom (g : List (String × PackageInfo)) (fuel : Nat) :
    List String → VisitState → VisitState
  | [], s => s
  | k :: ks, s =>
    visitAllFrom g fuel ks (if k ∈ s.visited then s else visit g fuel k s)

def visitAll (g : List (String × PackageInfo)) (fuel : Nat) : VisitState :=
  visitAllFrom g fuel (g.map Prod.fst) ⟨[], [], [], []⟩

/-- Embedding of `getTopologicalOrder` with explicit fuel: the returned pair is
(`order.reverse()` as the source returns it, the cycle warnings emitted). -/
def getTopologicalOrderFuel (g : List (String × PackageInfo)) (fuel : Nat) :
    List String × List String :=
  let s := visitAll g fuel
  (s.order.reverse, s.warnings)

/-- Embedding of `getTopologicalOrder` from src/dependency-graph.ts at the canonical,
provably sufficient fuel. -/
def getTopologicalOrder (g : List (String × PackageInfo)) :
    List String × List String :=
  getTopologicalOrderFuel g (g.length + 1)

/-- The local dependencies `visit` recurses over for a name: the filtered
manifest dependencies when the name is in the graph, nothing otherwise. -/
def depsOf (g : List (String × PackageInfo)) (name : String) : List String :=
  match lookupKey name g with
  | some node => (allDeps node).filter (fun d => (lookupKey d g).isSome)
  | none => []

/-! Fuel adequacy: the recursion depth of `visit` is bounded by the number of
graph keys not yet in progress, so any fuel above `g.length` computes the
same result (the source's unfuelled recursion terminates). -/

/-- Number of graph keys not in the given in-progress set. -/
def keysLeft (g : List (String × PackageInfo)) (temp : List String) : Nat :=
  ((g.map Prod.fst).filter (fun k => decide (k ∉ temp))).length

/-! ## Concrete scenario inputs -/

/-- Scenario D of the spec: A depends on B, B depends on C, C has no
dependencies, declared in order [A, B, C]. -/
def chainGraphD : List (String × PackageInfo) :=
  [("A", ⟨"A", "/a", ["B"], [], []⟩), ("B", ⟨"B", "/b", ["C"], [], []⟩),
   ("C", ⟨"C", "/c", [], [], []⟩)]

/-- Scenario B of the spec: A depends on B and B depends on A. -/
def cycleGraphB : List (String × PackageInfo) :=
  [("A", ⟨"A", "/a", ["B"], [], []⟩), ("B", ⟨"B", "/b", ["A"], [], []⟩)]

/-- A package node whose manifest declares a dependency on itself. -/
def selfNode : PackageInfo := ⟨"A", "/a", ["A"], [], []⟩

def selfGraph : List (String × PackageInfo) := [("A", selfNode)]

/-- File system with a single package at `/a` whose manifest lists the
package's own name among its dependencies. -/
def envSelf : Env where
  cwd := "/proj"
  isAbsolute := fun p => match p.data with | '/' :: _ => true | _ => false
  resolvePath := fun base p => base ++ "/" ++ p
  joinPath := fun a b => a ++ "/" ++ b
  fileExists := fun p => p == "/a/package.json"
  parseJson := fun p =>
    if p == "/a/package.json" then some ⟨["A"], [], [], none⟩ else none
  runBuild := fun _ _ _ => true
  createGlobalLink := fun _ _ => true
  linkToProject := fun _ => true
  readConfigIn := fun _ => []

/-! ## Builder and pipeline (src/builder.ts, src/linker.ts)

Outcomes of the package-manager commands come from `Env`; the logger lines
and collaborator calls the claims refer to are returned as `PipeEv` events. -/

/-- Embedding of `buildPackage` from src/builder.ts. -/
def buildPackage (env : Env) (packageName : String) (config : PackageConfig) : Bool :=
  let absPath := if env.isAbsolute config.path then config.path
    else env.resolvePath env.cwd config.path
  if !env.fileExists absPath then false
  else
    let packageJsonPath := env.joinPath absPath "package.json"
    if !env.fileExists packageJsonPath then false
    else
      match env.parseJson packageJsonPath with
      | none => false
      | some packageJson =>
        if config.buildCommand.isNone && packageJson.scriptsBuild.isNone then true
        else env.runBuild absPath packageName config.buildCommand

/-- Embedding of `linkPackage` from src/linker.ts: global link in the package, then link
into the project; the first failure short-circuits. -/
def linkPackage (env : Env) (packageName : String) (config : PackageConfig) : Bool :=
  let absPath := if env.isAbsolute config.path then config.path
    else env.resolvePath env.cwd config.path
  if !env.createGlobalLink absPath packageName then false
  else env.linkToProject packageName

inductive PipeEv where
  | cycleWarn (name : String)
  | missingWarn (names : List String)
  | buildOutcome (name : String) (ok : Bool)
  | linkOutcome (name : String) (ok : Bool)
deriving DecidableEq, Repr

/-- The package loop of `linkAllPackages`: build, skip the link on build
failure but continue with the remaining packages, and aggregate
`allSuccessful`.  (The `none` lookup branch is unreachable when the order
only names declared packages, which the theorems below establish.) -/
def processLoop (env : Env) (localPackages : List (String × PackageConfig)) :
    List String → Bool → Bool × List PipeEv
  | [], acc => (acc, [])
  | n :: rest, acc =>
    match lookupKey n localPackages with
    | none => processLoop env localPackages rest acc
    | some config =>
      let b := buildPackage env n config
      if b then
        let l := linkPackage env n config
        let r := processLoop env localPackages rest (acc && l)
        (r.1, PipeEv.buildOutcome n true :: PipeEv.linkOutcome n l :: r.2)
      else
        let r := processLoop env localPackages rest false
        (r.1, PipeEv.buildOutcome n false :: r.2)

/-- Property that package `n` completed its build and link steps without error. -/
def perPkgOk (env : Env) (localPackages : List (String × PackageConfig))
    (n : String) : Bool :=
  match lookupKey n localPackages with
  | some config => buildPackage env n config && linkPackage env n config
  | none => true

/-- Embedding of `linkAllPackages` from src/linker.ts. -/
def linkAllPackages (env : Env) (localPackages : List (String × PackageConfig))
    (resolveDependencies : Bool) : Bool × List PipeEv :=
  if localPackages.length = 0 then (false, [])
  else
    let pre :=
      if resolveDependencies then
        let graph := buildDependencyGraph env localPackages
        let tw := getTopologicalOrder graph
        let missing := (localPackages.map Prod.fst).filter
          (fun n => decide (n ∉ tw.1))
        (tw.1 ++ missing,
         tw.2.map PipeEv.cycleWarn ++
           (if missing.length = 0 then [] else [PipeEv.missingWarn missing]))
      else (localPackages.map Prod.fst, ([] : List PipeEv))
    let r := processLoop env localPackages pre.1 true
    (r.1, pre.2 ++ r.2)

/-- Scenario C declarations: A at `/pa` (readable manifest), B at `/pb`
(directory exists, no readable manifest). -/
def lpC : List (String × PackageConfig) :=
  [("A", ⟨"/pa", none, none⟩), ("B", ⟨"/pb", none, none⟩)]

def envC : Env where
  cwd := "/proj"
  isAbsolute := fun p => match p.data with | '/' :: _ => true | _ => false
  resolvePath := fun base p => base ++ "/" ++ p
  joinPath := fun a b => a ++ "/" ++ b
  fileExists := fun p => p == "/pa" || p == "/pa/package.json" || p == "/pb"
  parseJson := fun p =>
    if p == "/pa/package.json" then some ⟨[], [], [], none⟩ else none
  runBuild := fun _ _ _ => true
  createGlobalLink := fun _ _ => true
  linkToProject := fun _ => true
  readConfigIn := fun _ => []

/-- An environment in which every collaborator call trivially succeeds. -/
def envTrivial : Env where
  cwd := "/proj"
  isAbsolute := fun _ => true
  resolvePath := fun base p => base ++ "/" ++ p
  joinPath := fun a b => a ++ "/" ++ b
  fileExists := fun _ => true
  parseJson := fun _ => some ⟨[], [], [], none⟩
  runBuild := fun _ _ _ => true
  createGlobalLink := fun _ _ => true
  linkToProject := fun _ => true
  readConfigIn := fun _ => []

/-- A package at `/pkg` whose manifest has no `scripts.build`, in an
environment whose build runner would *fail* if it were invoked. -/
def envScriptless : Env where
  cwd := "/proj"
  isAbsolute := fun p => match p.data with | '/' :: _ => true | _ => false
  resolvePath := fun base p => base ++ "/" ++ p
  joinPath := fun a b => a ++ "/" ++ b
  fileExists := fun p => p == "/pkg" || p == "/pkg/package.json"
  parseJson := fun p =>
    if p == "/pkg/package.json" then some ⟨[], [], [], none⟩ else none
  runBuild := fun _ _ _ => false
  createGlobalLink := fun _ _ => true
  linkToProject := fun _ => true
  readConfigIn := fun _ => []

/-! ## Recursive expansion (src/linker.ts `linkRecursiveDependencies`,
`processPackageRecursively`)

Builder/linker calls, the chdir-scoped nested-config read and the logger
lines are modelled as `RecEv` events; the `readConfigIn` collaborator stands
for "chdir to the package directory, `readConfig()`, chdir back".
JavaScript's unbounded recursion is again fuelled. -/

/-- Resolution of a nested dependency's declared path against the parent
package's resolved directory (`path.isAbsolute ? p : path.resolve(absPath, p)`
in the source loop). -/
def resolveNested (env : Env) (absPath p : String) : String :=
  if env.isAbsolute p then p else env.resolvePath absPath p

inductive RecEv where
  | expand (key : String)
  | expandDir (name resolvedPath : String)
  | checking (depth : Nat) (name : String)
  | found (depth count : Nat) (name : String)
  | building (depth : Nat) (dep parent path : String)
  | linking (depth : Nat) (dep parent : String)
  | globalLink (path dep : String)
  | linkInto (parentPath dep : String)
deriving DecidableEq, Repr

/-- Embedding of `processPackageRecursively` from src/linker.ts.  The `expand` event marks
the passage of the processed-set guard; the key is added to the set *before*
any recursion, as in the source.  The companion `expandDir` event records, at
the same guard passage, the package name together with the *resolved*
directory (`absPath` in the source) that the expansion operates on, so that
expansions can also be counted per `(name, resolved directory)` pair. -/
def processPackageRecursively (env : Env) :
    Nat → String → PackageConfig → Nat → List String → List String × List RecEv
  | 0, _, _, _, processed => (processed, [])
  | fuel + 1, packageName, config, depth, processed =>
    if (packageName ++ ":" ++ config.path) ∈ processed then (processed, [])
    else
      let processed1 := processed ++ [packageName ++ ":" ++ config.path]
      let absPath := if env.isAbsolute config.path then config.path
        else env.resolvePath env.cwd config.path
      if !env.fileExists (env.joinPath absPath CONFIG_FILE) then
        (processed1, [RecEv.expand (packageName ++ ":" ++ config.path),
                      RecEv.expandDir packageName absPath])
      else
        let deps := env.readConfigIn absPath
        if deps.length = 0 then
          (processed1, [RecEv.expand (packageName ++ ":" ++ config.path),
                        RecEv.expandDir packageName absPath,
                        RecEv.checking depth packageName])
        else
          deps.foldl
            (fun acc dep =>
              let r := processPackageRecursively env fuel dep.1
                ⟨resolveNested env absPath dep.2.path, dep.2.buildCommand, dep.2.watchPatterns⟩
                (depth + 1) acc.1
              (r.1, acc.2 ++
                [RecEv.building (depth + 1) dep.1 packageName
                   (resolveNested env absPath dep.2.path),
                 RecEv.linking (depth + 1) dep.1 packageName,
                 RecEv.globalLink (resolveNested env absPath dep.2.path) dep.1,
                 RecEv.linkInto absPath dep.1] ++ r.2))
            (processed1, [RecEv.expand (packageName ++ ":" ++ config.path),
                          RecEv.expandDir packageName absPath,
                          RecEv.checking depth packageName,
                          RecEv.found depth deps.length packageName])

/-- The dependency loop of `processPackageRecursively`, as a named function
(definitionally the `foldl` in the definition above). -/
def processDeps (env : Env) (fuel : Nat) (packageName absPath : String)
    (depth : Nat) (ds : List (String × PackageConfig))
    (acc : List String × List RecEv) : List String × List RecEv :=
  ds.foldl
    (fun acc dep =>
      let r := processPackageRecursively env fuel dep.1
        ⟨resolveNested env absPath dep.2.path, dep.2.buildCommand, dep.2.watchPatterns⟩
        (depth + 1) acc.1
      (r.1, acc.2 ++
        [RecEv.building (depth + 1) dep.1 packageName
           (resolveNested env absPath dep.2.path),
         RecEv.linking (depth + 1) dep.1 packageName,
         RecEv.globalLink (resolveNested env absPath dep.2.path) dep.1,
         RecEv.linkInto absPath dep.1] ++ r.2))
    acc

/-- Embedding of `linkRecursiveDependencies` from src/linker.ts: one shared processed set,
initially empty, threaded through all root packages in declaration order. -/
def linkRecursiveDependencies (env : Env) (fuel : Nat)
    (localPackages : List (String × PackageConfig)) : List String × List RecEv :=
  localPackages.foldl
    (fun acc p =>
      let r := processPackageRecursively env fuel p.1 p.2 0 acc.1
      (r.1, acc.2 ++ r.2)) ([], [])

/-- The root loop of `linkRecursiveDependencies` with an explicit
accumulator (definitionally its `foldl`). -/
def linkRecAux (env : Env) (fuel : Nat)
    (lps : List (String × PackageConfig)) (acc : List String × List RecEv) :
    List String × List RecEv :=
  lps.foldl
    (fun acc p =>
      let r := processPackageRecursively env fuel p.1 p.2 0 acc.1
      (r.1, acc.2 ++ r.2)) acc

/-! ## Nested path resolution (C9) -/

/-- Predicate picking the build events of one expansion level. -/
def isBuildingAt (d : Nat) : RecEv → Bool
  | RecEv.building d2 _ _ _ => decide (d2 = d)
  | _ => false

/-- A root package at `/root` whose own `.localpackages` declares a nested
dependency by the relative path `../lib`. -/
def envNest : Env where
  cwd := "/proj"
  isAbsolute := fun p => match p.data with | '/' :: _ => true | _ => false
  resolvePath := fun base p => base ++ "/" ++ p
  joinPath := fun a b => a ++ "/" ++ b
  fileExists := fun p => p == "/root/.localpackages"
  parseJson := fun _ => none
  runBuild := fun _ _ _ => true
  createGlobalLink := fun _ _ => true
  linkToProject := fun _ => true
  readConfigIn := fun p =>
    if p == "/root" then [("lib", ⟨"../lib", none, none⟩)] else []

/-- A project whose root declares package `A` by the relative path `a`
(resolved directory `/proj/a`); `A`'s own config pulls in `B` at the absolute
path `/b`, and `B`'s config points back to `A` by its absolute directory
`/proj/a` — a back edge to an already-expanded directory written as a
different declared-path string. -/
def envBack : Env where
  cwd := "/proj"
  isAbsolute := fun p => match p.data with | '/' :: _ => true | _ => false
  resolvePath := fun base p => base ++ "/" ++ p
  joinPath := fun a b => a ++ "/" ++ b
  fileExists := fun p => p == "/proj/a/.localpackages" || p == "/b/.localpackages"
  parseJson := fun _ => none
  runBuild := fun _ _ _ => true
  createGlobalLink := fun _ _ => true
  linkToProject := fun _ => true
  readConfigIn := fun p =>
    if p == "/proj/a" then [("B", ⟨"/b", none, none⟩)]
    else if p == "/b" then [("A", ⟨"/proj/a", none, none⟩)]
    else []

/-! ## Theorems -/

/-! ## Resolver lemmas -/

theorem visit_succ (g : List (String × PackageInfo)) (n : Nat) (name : String)
    (s : VisitState) :
    visit g (n + 1) name s =
      if name ∈ s.temp then { s with warnings := s.warnings ++ [name] }
      else if name ∈ s.visited then s
      else
        let s1 : VisitState := { s with temp := s.temp ++ [name] }
        let s2 :=
          match lookupKey name g with
          | some node =>
            visitList g n ((allDeps node).filter (fun d => (lookupKey d g).isSome)) s1
          | none => s1
        { s2 with temp := s2.temp.erase name,
                  visited := s2.visited ++ [name],
                  order := s2.order ++ [name] } := rfl

theorem visitList_nil (g : List (String × PackageInfo)) (n : Nat) (s : VisitState) :
    visitList g n [] s = s := rfl

theorem visitList_cons (g : List (String × PackageInfo)) (n : Nat) (d : String)
    (ds : List String) (s : VisitState) :
    visitList g n (d :: ds) s = visitList g n ds (visit g n d s) := rfl

theorem lookupKey_isSome_mem {β : Type} (k : String) :
    ∀ m : List (String × β), (lookupKey k m).isSome = true → k ∈ m.map Prod.fst := by
  intro m
  induction m with
  | nil => intro h; simp [lookupKey] at h
  | cons p rest ih =>
    intro h
    by_cases hp : p.1 = k
    · simp only [List.map_cons, List.mem_cons]
      exact Or.inl hp.symm
    · simp only [lookupKey, if_neg hp] at h
      simp only [List.map_cons, List.mem_cons]
      exact Or.inr (ih h)

theorem lookupKey_some_mem {β : Type} (k : String) (v : β)
    (m : List (String × β)) (h : lookupKey k m = some v) : k ∈ m.map Prod.fst :=
  lookupKey_isSome_mem k m (by rw [h]; rfl)

theorem depsOf_subset_keys (g : List (String × PackageInfo)) (name : String) :
    ∀ x ∈ depsOf g name, x ∈ g.map Prod.fst := by
  intro x hx
  unfold depsOf at hx
  cases hl : lookupKey name g with
  | none => rw [hl] at hx; simp at hx
  | some node =>
    rw [hl] at hx
    exact lookupKey_isSome_mem x g (List.mem_filter.mp hx).2

theorem mem_depsOf_self (g : List (String × PackageInfo)) (name : String)
    (node : PackageInfo) (hl : lookupKey name g = some node)
    (hself : name ∈ allDeps node) : name ∈ depsOf g name := by
  unfold depsOf
  rw [hl]
  exact List.mem_filter.mpr ⟨hself, by rw [hl]; rfl⟩

/-- Unfolding of `visit` in the expanding branch (name neither in progress
nor done), with the two `lookupKey` cases merged through `depsOf`. -/
theorem visit_expand (g : List (String × PackageInfo)) (n : Nat) (name : String)
    (s : VisitState) (h1 : name ∉ s.temp) (h2 : name ∉ s.visited) :
    visit g (n + 1) name s =
      { visitList g n (depsOf g name) { s with temp := s.temp ++ [name] } with
        temp := (visitList g n (depsOf g name)
          { s with temp := s.temp ++ [name] }).temp.erase name,
        visited := (visitList g n (depsOf g name)
          { s with temp := s.temp ++ [name] }).visited ++ [name],
        order := (visitList g n (depsOf g name)
          { s with temp := s.temp ++ [name] }).order ++ [name] } := by
  rw [visit_succ, if_neg h1, if_neg h2]
  unfold depsOf
  cases hl : lookupKey name g with
  | none => simp only [hl]; rw [visitList_nil]
  | some node => simp only [hl]

theorem visit_zero (g : List (String × PackageInfo)) (name : String)
    (s : VisitState) : visit g 0 name s = s := rfl

theorem visit_warn_branch (g : List (String × PackageInfo)) (n : Nat)
    (name : String) (s : VisitState) (h : name ∈ s.temp) :
    visit g (n + 1) name s = { s with warnings := s.warnings ++ [name] } := by
  rw [visit_succ, if_pos h]

theorem visit_done_branch (g : List (String × PackageInfo)) (n : Nat)
    (name : String) (s : VisitState) (h1 : name ∉ s.temp) (h2 : name ∈ s.visited) :
    visit g (n + 1) name s = s := by
  rw [visit_succ, if_neg h1, if_pos h2]

/-- Lemma that `visit` restores the in-progress set: the source's `temp.add(name)` is
undone by `temp.delete(name)` on every completed call. -/
theorem visit_temp (g : List (String × PackageInfo)) :
    ∀ (n : Nat) (name : String) (s : VisitState), (visit g n name s).temp = s.temp := by
  intro n
  induction n with
  | zero => intro name s; rfl
  | succ m ih =>
    have hlist : ∀ (ds : List String) (s : VisitState),
        (visitList g m ds s).temp = s.temp := by
      intro ds
      induction ds with
      | nil => intro s; rfl
      | cons d t iht => intro s; rw [visitList_cons, iht, ih]
    intro name s
    by_cases h1 : name ∈ s.temp
    · rw [visit_warn_branch g m name s h1]
    · by_cases h2 : name ∈ s.visited
      · rw [visit_done_branch g m name s h1 h2]
      · rw [visit_expand g m name s h1 h2]
        show (visitList g m (depsOf g name)
          { s with temp := s.temp ++ [name] }).temp.erase name = s.temp
        rw [hlist]
        show (s.temp ++ [name]).erase name = s.temp
        rw [List.erase_append_right [name] h1, List.erase_cons_head, List.append_nil]

/-- Main structural facts about one `visit` call: `visited` and `order` are
extended by the same new segment, warnings only grow, new nodes were not
in-progress, every new node is the visited name or a graph key, and `visited`
stays duplicate-free. -/
theorem visit_spec (g : List (String × PackageInfo)) :
    ∀ (n : Nat) (name : String) (s : VisitState), ∃ l w,
      (visit g n name s).visited = s.visited ++ l ∧
      (visit g n name s).order = s.order ++ l ∧
      (visit g n name s).warnings = s.warnings ++ w ∧
      (∀ x ∈ l, x ∉ s.temp) ∧
      (∀ x ∈ l, x = name ∨ x ∈ g.map Prod.fst) ∧
      (s.visited.Nodup → (s.visited ++ l).Nodup) := by
  intro n
  induction n with
  | zero =>
    intro name s
    exact ⟨[], [], by rw [visit_zero]; simp, by rw [visit_zero]; simp,
      by rw [visit_zero]; simp, by simp, by simp, by simp⟩
  | succ m ih =>
    have hlist : ∀ (ds : List String) (s : VisitState), ∃ l w,
        (visitList g m ds s).visited = s.visited ++ l ∧
        (visitList g m ds s).order = s.order ++ l ∧
        (visitList g m ds s).warnings = s.warnings ++ w ∧
        (∀ x ∈ l, x ∉ s.temp) ∧
        (∀ x ∈ l, x ∈ ds ∨ x ∈ g.map Prod.fst) ∧
        (s.visited.Nodup → (s.visited ++ l).Nodup) := by
      intro ds
      induction ds with
      | nil =>
        intro s
        exact ⟨[], [], by rw [visitList_nil]; simp, by rw [visitList_nil]; simp,
          by rw [visitList_nil]; simp, by simp, by simp, by simp⟩
      | cons d t iht =>
        intro s
        obtain ⟨l1, w1, hv1, ho1, hw1, ht1, hk1, hn1⟩ := ih d s
        obtain ⟨l2, w2, hv2, ho2, hw2, ht2, hk2, hn2⟩ := iht (visit g m d s)
        refine ⟨l1 ++ l2, w1 ++ w2, ?_, ?_, ?_, ?_, ?_, ?_⟩
        · rw [visitList_cons, hv2, hv1, List.append_assoc]
        · rw [visitList_cons, ho2, ho1, List.append_assoc]
        · rw [visitList_cons, hw2, hw1, List.append_assoc]
        · intro x hx
          rcases List.mem_append.mp hx with hx1 | hx2
          · exact ht1 x hx1
          · have := ht2 x hx2
            rwa [visit_temp] at this
        · intro x hx
          rcases List.mem_append.mp hx with hx1 | hx2
          · rcases hk1 x hx1 with h | h
            · exact Or.inl (h ▸ List.mem_cons_self ..)
            · exact Or.inr h
          · rcases hk2 x hx2 with h | h
            · exact Or.inl (List.mem_cons_of_mem _ h)
            · exact Or.inr h
        · intro hnd
          have h1 := hn1 hnd
          have h2 := hn2 (hv1 ▸ h1)
          rw [hv1] at h2
          rwa [← List.append_assoc]
    intro name s
    by_cases h1 : name ∈ s.temp
    · rw [visit_warn_branch g m name s h1]
      exact ⟨[], [name], by simp, by simp, by simp, by simp, by simp, by simp⟩
    · by_cases h2 : name ∈ s.visited
      · rw [visit_done_branch g m name s h1 h2]
        exact ⟨[], [], by simp, by simp, by simp, by simp, by simp, by simp⟩
      · rw [visit_expand g m name s h1 h2]
        obtain ⟨l2, w2, hv2, ho2, hw2, ht2, hk2, hn2⟩ :=
          hlist (depsOf g name) { s with temp := s.temp ++ [name] }
        have hv2' : (visitList g m (depsOf g name)
            { s with temp := s.temp ++ [name] }).visited = s.visited ++ l2 := hv2
        have ho2' : (visitList g m (depsOf g name)
            { s with temp := s.temp ++ [name] }).order = s.order ++ l2 := ho2
        have hw2' : (visitList g m (depsOf g name)
            { s with temp := s.temp ++ [name] }).warnings = s.warnings ++ w2 := hw2
        have hname2 : name ∉ l2 := fun hmem => ht2 name hmem (by simp)
        refine ⟨l2 ++ [name], w2, ?_, ?_, ?_, ?_, ?_, ?_⟩
        · show (visitList g m (depsOf g name)
            { s with temp := s.temp ++ [name] }).visited ++ [name] = _
          rw [hv2', List.append_assoc]
        · show (visitList g m (depsOf g name)
            { s with temp := s.temp ++ [name] }).order ++ [name] = _
          rw [ho2', List.append_assoc]
        · exact hw2'
        · intro x hx
          rcases List.mem_append.mp hx with hx1 | hx2
          · have := ht2 x hx1
            intro hmem
            exact this (List.mem_append_left _ hmem)
          · rw [List.mem_singleton] at hx2
            exact hx2 ▸ h1
        · intro x hx
          rcases List.mem_append.mp hx with hx1 | hx2
          · rcases hk2 x hx1 with h | h
            · exact Or.inr (depsOf_subset_keys g name x h)
            · exact Or.inr h
          · rw [List.mem_singleton] at hx2
            exact Or.inl hx2
        · intro hnd
          have h2n : (s.visited ++ l2).Nodup := hn2 hnd
          rw [← List.append_assoc]
          refine List.Nodup.append h2n (by simp) ?_
          intro x hx hmem
          simp only [List.mem_singleton] at hmem
          subst hmem
          rcases List.mem_append.mp hx with hxa | hxb
          · exact h2 hxa
          · exact hname2 hxb

/-- With at least one unit of fuel, visiting a not-in-progress name puts it
in `visited`. -/
theorem visit_mem_visited (g : List (String × PackageInfo)) (m : Nat)
    (name : String) (s : VisitState) (h : name ∉ s.temp) :
    name ∈ (visit g (m + 1) name s).visited := by
  by_cases h2 : name ∈ s.visited
  · rw [visit_done_branch g m name s h h2]; exact h2
  · rw [visit_expand g m name s h h2]
    show name ∈ (visitList g m (depsOf g name)
      { s with temp := s.temp ++ [name] }).visited ++ [name]
    simp

theorem keysLeft_le (g : List (String × PackageInfo)) (temp : List String) :
    keysLeft g temp ≤ g.length := by
  calc ((g.map Prod.fst).filter _).length
      ≤ (g.map Prod.fst).length := (List.filter_sublist _).length_le
    _ = g.length := List.length_map _ _

theorem keysLeft_nil (g : List (String × PackageInfo)) :
    keysLeft g [] = g.length := by
  unfold keysLeft
  simp

theorem keysLeft_lt (g : List (String × PackageInfo)) (temp : List String)
    (name : String) (hk : name ∈ g.map Prod.fst) (ht : name ∉ temp) :
    keysLeft g (temp ++ [name]) < keysLeft g temp := by
  unfold keysLeft
  have hsub : List.Sublist
      ((g.map Prod.fst).filter (fun k => decide (k ∉ temp ++ [name])))
      ((g.map Prod.fst).filter (fun k => decide (k ∉ temp))) := by
    apply List.monotone_filter_right
    intro a ha
    simp only [decide_eq_true_eq, List.mem_append] at ha ⊢
    exact fun hmem => ha (Or.inl hmem)
  have hle := hsub.length_le
  rcases Nat.lt_or_ge (((g.map Prod.fst).filter
        (fun k => decide (k ∉ temp ++ [name]))).length)
      (((g.map Prod.fst).filter (fun k => decide (k ∉ temp))).length) with h | h
  · exact h
  · exfalso
    have heq := hsub.eq_of_length (Nat.le_antisymm hle h)
    have hmem : name ∈ (g.map Prod.fst).filter (fun k => decide (k ∉ temp)) := by
      rw [List.mem_filter]
      exact ⟨hk, by simpa using ht⟩
    rw [← heq, List.mem_filter] at hmem
    simp at hmem

/-- Fuel indifference for `visit`: any two fuels above the key bound give the
same result. -/
theorem visit_stable (g : List (String × PackageInfo)) :
    ∀ (b : Nat) (name : String) (s : VisitState) (n1 n2 : Nat),
      keysLeft g s.temp ≤ b → keysLeft g s.temp < n1 → keysLeft g s.temp < n2 →
      visit g n1 name s = visit g n2 name s := by
  intro b
  induction b using Nat.strong_induction_on with
  | _ b ih =>
    intro name s n1 n2 hb h1 h2
    obtain ⟨m1, rfl⟩ : ∃ m, n1 = m + 1 := ⟨n1 - 1, by omega⟩
    obtain ⟨m2, rfl⟩ : ∃ m, n2 = m + 1 := ⟨n2 - 1, by omega⟩
    by_cases ht : name ∈ s.temp
    · rw [visit_warn_branch g m1 name s ht, visit_warn_branch g m2 name s ht]
    · by_cases hv : name ∈ s.visited
      · rw [visit_done_branch g m1 name s ht hv, visit_done_branch g m2 name s ht hv]
      · rw [visit_expand g m1 name s ht hv, visit_expand g m2 name s ht hv]
        by_cases hkey : name ∈ g.map Prod.fst
        · have hlt := keysLeft_lt g s.temp name hkey ht
          have hfold : ∀ (ds : List String) (s' : VisitState),
              s'.temp = s.temp ++ [name] →
              visitList g m1 ds s' = visitList g m2 ds s' := by
            intro ds
            induction ds with
            | nil => intro s' _; rfl
            | cons d t iht =>
              intro s' hs'
              rw [visitList_cons, visitList_cons]
              have heq : visit g m1 d s' = visit g m2 d s' := by
                apply ih (keysLeft g s'.temp) (by rw [hs']; omega) d s' m1 m2
                  (Nat.le_refl _) (by rw [hs']; omega) (by rw [hs']; omega)
              rw [heq]
              exact iht (visit g m2 d s') (by rw [visit_temp, hs'])
          rw [hfold _ _ rfl]
        · have hdeps : depsOf g name = [] := by
            unfold depsOf
            cases hl : lookupKey name g with
            | none => rfl
            | some node => exact absurd (lookupKey_some_mem name node g hl) hkey
          rw [hdeps, visitList_nil, visitList_nil]

theorem visitAllFrom_stable (g : List (String × PackageInfo)) :
    ∀ (ks : List String) (s : VisitState) (n1 n2 : Nat), s.temp = [] →
      g.length < n1 → g.length < n2 →
      visitAllFrom g n1 ks s = visitAllFrom g n2 ks s := by
  intro ks
  induction ks with
  | nil => intro s n1 n2 _ _ _; rfl
  | cons k t ih =>
    intro s n1 n2 hst h1 h2
    show visitAllFrom g n1 t _ = visitAllFrom g n2 t _
    by_cases hk : k ∈ s.visited
    · simp only [if_pos hk]
      exact ih s n1 n2 hst h1 h2
    · simp only [if_neg hk]
      have heq : visit g n1 k s = visit g n2 k s := by
        apply visit_stable g g.length k s n1 n2
        · rw [hst, keysLeft_nil]
        · rw [hst, keysLeft_nil]; exact h1
        · rw [hst, keysLeft_nil]; exact h2
      rw [heq]
      exact ih (visit g n2 k s) n1 n2 (by rw [visit_temp, hst]) h1 h2

/-- Fuel adequacy for the whole resolver (termination of the source's
unbounded recursion): every fuel of at least `graph size + 1` computes
`getTopologicalOrder`. -/
theorem getTopologicalOrderFuel_stable (g : List (String × PackageInfo))
    (fuel : Nat) (h : g.length + 1 ≤ fuel) :
    getTopologicalOrderFuel g fuel = getTopologicalOrder g := by
  unfold getTopologicalOrder getTopologicalOrderFuel visitAll
  rw [visitAllFrom_stable g (g.map Prod.fst) ⟨[], [], [], []⟩ fuel (g.length + 1)
    rfl (by omega) (by omega)]

theorem visitAllFrom_nil (g : List (String × PackageInfo)) (fuel : Nat)
    (s : VisitState) : visitAllFrom g fuel [] s = s := rfl

theorem visitAllFrom_cons (g : List (String × PackageInfo)) (fuel : Nat)
    (k : String) (ks : List String) (s : VisitState) :
    visitAllFrom g fuel (k :: ks) s =
      visitAllFrom g fuel ks (if k ∈ s.visited then s else visit g fuel k s) := rfl

/-- Composed structural facts for the top-level loop. -/
theorem visitAllFrom_spec (g : List (String × PackageInfo)) (fuel : Nat) :
    ∀ (ks : List String) (s : VisitState), ∃ l w,
      (visitAllFrom g fuel ks s).temp = s.temp ∧
      (visitAllFrom g fuel ks s).visited = s.visited ++ l ∧
      (visitAllFrom g fuel ks s).order = s.order ++ l ∧
      (visitAllFrom g fuel ks s).warnings = s.warnings ++ w ∧
      (∀ x ∈ l, x ∈ ks ∨ x ∈ g.map Prod.fst) ∧
      (s.visited.Nodup → (s.visited ++ l).Nodup) := by
  intro ks
  induction ks with
  | nil =>
    intro s
    exact ⟨[], [], rfl, by rw [visitAllFrom_nil]; simp, by rw [visitAllFrom_nil]; simp,
      by rw [visitAllFrom_nil]; simp, by simp, by simp⟩
  | cons k t ih =>
    intro s
    rw [visitAllFrom_cons]
    by_cases hk : k ∈ s.visited
    · rw [if_pos hk]
      obtain ⟨l, w, h1, h2, h3, h4, h5, h6⟩ := ih s
      exact ⟨l, w, h1, h2, h3, h4,
        fun x hx => (h5 x hx).elim (fun h => Or.inl (List.mem_cons_of_mem _ h)) Or.inr, h6⟩
    · rw [if_neg hk]
      obtain ⟨l1, w1, hv1, ho1, hw1, ht1, hk1, hn1⟩ := visit_spec g fuel k s
      obtain ⟨l2, w2, h1, h2, h3, h4, h5, h6⟩ := ih (visit g fuel k s)
      refine ⟨l1 ++ l2, w1 ++ w2, ?_, ?_, ?_, ?_, ?_, ?_⟩
      · rw [h1, visit_temp]
      · rw [h2, hv1, List.append_assoc]
      · rw [h3, ho1, List.append_assoc]
      · rw [h4, hw1, List.append_assoc]
      · intro x hx
        rcases List.mem_append.mp hx with hx1 | hx2
        · rcases hk1 x hx1 with h | h
          · exact Or.inl (h ▸ List.mem_cons_self ..)
          · exact Or.inr h
        · rcases h5 x hx2 with h | h
          · exact Or.inl (List.mem_cons_of_mem _ h)
          · exact Or.inr h
      · intro hnd
        have ha := hn1 hnd
        have hb := h6 (hv1 ▸ ha)
        rw [hv1] at hb
        rwa [← List.append_assoc]

/-- Completeness of the top-level loop: with positive fuel and an empty
in-progress set, every enumerated key ends up visited. -/
theorem visitAllFrom_mem (g : List (String × PackageInfo)) (m : Nat) :
    ∀ (ks : List String) (s : VisitState), s.temp = [] →
      ∀ k ∈ ks, k ∈ (visitAllFrom g (m + 1) ks s).visited := by
  intro ks
  induction ks with
  | nil => intro s _ k hk; simp at hk
  | cons k2 t ih =>
    intro s hst k hk
    rw [visitAllFrom_cons]
    have hs' : (if k2 ∈ s.visited then s else visit g (m + 1) k2 s).temp = [] := by
      by_cases h : k2 ∈ s.visited
      · rw [if_pos h]; exact hst
      · rw [if_neg h, visit_temp]; exact hst
    rcases List.mem_cons.mp hk with rfl | hkt
    · have hmem : k ∈ (if k ∈ s.visited then s else visit g (m + 1) k s).visited := by
        by_cases h : k ∈ s.visited
        · rw [if_pos h]; exact h
        · rw [if_neg h]
          exact visit_mem_visited g m k s (by rw [hst]; simp)
      obtain ⟨l, w, _, hv, _, _, _, _⟩ := visitAllFrom_spec g (m + 1) t
        (if k ∈ s.visited then s else visit g (m + 1) k s)
      rw [hv]
      exact List.mem_append_left _ hmem
    · exact ih _ hs' k hkt

theorem visitAll_order_eq_visited (g : List (String × PackageInfo)) (fuel : Nat) :
    (visitAll g fuel).order = (visitAll g fuel).visited := by
  unfold visitAll
  obtain ⟨l, w, _, hv, ho, _, _, _⟩ :=
    visitAllFrom_spec g fuel (g.map Prod.fst) ⟨[], [], [], []⟩
  rw [ho, hv]

theorem visitAll_visited_nodup (g : List (String × PackageInfo)) (fuel : Nat) :
    (visitAll g fuel).visited.Nodup := by
  obtain ⟨l, w, _, hv, _, _, _, hn⟩ :=
    visitAllFrom_spec g fuel (g.map Prod.fst) ⟨[], [], [], []⟩
  show (visitAllFrom g fuel (g.map Prod.fst) ⟨[], [], [], []⟩).visited.Nodup
  rw [hv]
  exact hn (by simp)

theorem visitAll_visited_subset (g : List (String × PackageInfo)) (fuel : Nat) :
    ∀ x ∈ (visitAll g fuel).visited, x ∈ g.map Prod.fst := by
  obtain ⟨l, w, _, hv, _, _, hks, _⟩ :=
    visitAllFrom_spec g fuel (g.map Prod.fst) ⟨[], [], [], []⟩
  intro x hx
  have hx' : x ∈ (visitAllFrom g fuel (g.map Prod.fst) ⟨[], [], [], []⟩).visited := hx
  rw [hv] at hx'
  rcases List.mem_append.mp hx' with h | h
  · simp at h
  · exact (hks x h).elim id id

theorem visitAll_visited_complete (g : List (String × PackageInfo)) (m : Nat) :
    ∀ k ∈ g.map Prod.fst, k ∈ (visitAll g (m + 1)).visited :=
  fun k hk => visitAllFrom_mem g m (g.map Prod.fst) ⟨[], [], [], []⟩ rfl k hk

/-! Basic counting helpers stated with the kernel `BEq` instances. -/

theorem count_le_one_of_nodup {α : Type} [BEq α] [LawfulBEq α] :
    ∀ {l : List α}, l.Nodup → ∀ a : α, l.count a ≤ 1 := by
  intro l
  induction l with
  | nil => intro _ a; simp
  | cons b t ih =>
    intro h a
    rw [List.nodup_cons] at h
    rw [List.count_cons]
    by_cases hba : b == a
    · have : a ∉ t := by
        rw [eq_of_beq hba] at h
        exact h.1
      rw [List.count_eq_zero_of_not_mem this]
      simp [hba]
    · have hc := ih h.2 a
      have hf : (b == a) = false := by
        cases hbe : b == a
        · rfl
        · exact absurd hbe hba
      rw [hf]
      simpa using hc

theorem count_eq_one_of_nodup_mem {α : Type} [BEq α] [LawfulBEq α]
    {l : List α} {a : α} (hnd : l.Nodup) (hmem : a ∈ l) : l.count a = 1 :=
  Nat.le_antisymm (count_le_one_of_nodup hnd a) (List.count_pos_iff.mpr hmem)

/-- Membership in the produced order is exactly membership in the graph's
key set (for every graph, cyclic or not). -/
theorem getTopologicalOrder_mem_iff (g : List (String × PackageInfo)) (x : String) :
    x ∈ (getTopologicalOrder g).1 ↔ x ∈ g.map Prod.fst := by
  show x ∈ (visitAll g (g.length + 1)).order.reverse ↔ _
  rw [List.mem_reverse, visitAll_order_eq_visited]
  exact ⟨fun h => visitAll_visited_subset g (g.length + 1) x h,
    fun h => visitAll_visited_complete g g.length x h⟩

theorem getTopologicalOrder_nodup (g : List (String × PackageInfo)) :
    (getTopologicalOrder g).1.Nodup := by
  show (visitAll g (g.length + 1)).order.reverse.Nodup
  rw [List.nodup_reverse, visitAll_order_eq_visited]
  exact visitAll_visited_nodup g (g.length + 1)

/-- Every graph node occurs exactly once in the output, cycles included. -/
theorem getTopologicalOrder_count (g : List (String × PackageInfo)) (x : String)
    (h : x ∈ g.map Prod.fst) : (getTopologicalOrder g).1.count x = 1 :=
  count_eq_one_of_nodup_mem (getTopologicalOrder_nodup g)
    ((getTopologicalOrder_mem_iff g x).mpr h)

/-- For duplicate-free key enumerations the output order is a permutation of
the graph keys. -/
theorem getTopologicalOrder_perm (g : List (String × PackageInfo))
    (h : (g.map Prod.fst).Nodup) :
    List.Perm (getTopologicalOrder g).1 (g.map Prod.fst) := by
  rw [List.perm_iff_count]
  intro a
  by_cases ha : a ∈ g.map Prod.fst
  · rw [getTopologicalOrder_count g a ha, count_eq_one_of_nodup_mem h ha]
  · rw [List.count_eq_zero_of_not_mem ha, List.count_eq_zero_of_not_mem
      (fun hmem => ha ((getTopologicalOrder_mem_iff g a).mp hmem))]

/-! ## Self-loops are reported as cycles

If a graph node lists its own name among its manifest dependencies, the
resolver's `visit` re-encounters the name while it is in progress and emits a
cycle warning for it. -/

/-- Warnings/visited/order extension for the dependency fold. -/
theorem visitList_grow (g : List (String × PackageInfo)) (n : Nat) :
    ∀ (ds : List String) (s : VisitState), ∃ l w,
      (visitList g n ds s).visited = s.visited ++ l ∧
      (visitList g n ds s).order = s.order ++ l ∧
      (visitList g n ds s).warnings = s.warnings ++ w := by
  intro ds
  induction ds with
  | nil =>
    intro s
    exact ⟨[], [], by rw [visitList_nil]; simp, by rw [visitList_nil]; simp,
      by rw [visitList_nil]; simp⟩
  | cons d t ih =>
    intro s
    obtain ⟨l1, w1, hv1, ho1, hw1, _, _, _⟩ := visit_spec g n d s
    obtain ⟨l2, w2, hv2, ho2, hw2⟩ := ih (visit g n d s)
    exact ⟨l1 ++ l2, w1 ++ w2,
      by rw [visitList_cons, hv2, hv1, List.append_assoc],
      by rw [visitList_cons, ho2, ho1, List.append_assoc],
      by rw [visitList_cons, hw2, hw1, List.append_assoc]⟩

/-- If a name that is in progress occurs in the dependency list, the fold
emits a cycle warning for it. -/
theorem visitList_warn (g : List (String × PackageInfo)) (f : Nat) (name : String) :
    ∀ (ds : List String) (s : VisitState), name ∈ ds → name ∈ s.temp → 1 ≤ f →
      name ∈ (visitList g f ds s).warnings := by
  intro ds
  induction ds with
  | nil => intro s h; simp at h
  | cons d t ih =>
    intro s hd ht hf
    rcases List.mem_cons.mp hd with rfl | hdt
    · obtain ⟨m, rfl⟩ : ∃ m, f = m + 1 := ⟨f - 1, by omega⟩
      rw [visitList_cons, visit_warn_branch g m name s ht]
      obtain ⟨l, w, _, _, hw⟩ :=
        visitList_grow g (m + 1) t { s with warnings := s.warnings ++ [name] }
      rw [hw]
      show name ∈ (s.warnings ++ [name]) ++ w
      simp
    · rw [visitList_cons]
      exact ih (visit g f d s) hdt (by rw [visit_temp]; exact ht) hf

/-- Conditional invariant: once a self-looping node is in `visited`, its name
is among the warnings — preserved by every `visit` call with adequate fuel. -/
theorem visit_selfwarn (g : List (String × PackageInfo)) (name : String)
    (node : PackageInfo) (hl : lookupKey name g = some node)
    (hself : name ∈ allDeps node) :
    ∀ (fuel : Nat) (m : String) (s : VisitState),
      keysLeft g s.temp < fuel →
      (name ∈ s.visited → name ∈ s.warnings) →
      name ∈ (visit g fuel m s).visited → name ∈ (visit g fuel m s).warnings := by
  intro fuel
  induction fuel with
  | zero => intro m s hf; exact absurd hf (Nat.not_lt_zero _)
  | succ f ih =>
    intro m s hf hinv hvis
    by_cases h1 : m ∈ s.temp
    · rw [visit_warn_branch g f m s h1] at hvis ⊢
      exact List.mem_append_left _ (hinv hvis)
    · by_cases h2 : m ∈ s.visited
      · rw [visit_done_branch g f m s h1 h2] at hvis ⊢
        exact hinv hvis
      · rw [visit_expand g f m s h1 h2] at hvis ⊢
        by_cases hm : m ∈ g.map Prod.fst
        · have hbound : keysLeft g (s.temp ++ [m]) < f := by
            have := keysLeft_lt g s.temp m hm h1
            omega
          have hfold : ∀ (ds : List String) (s' : VisitState),
              s'.temp = s.temp ++ [m] →
              (name ∈ s'.visited → name ∈ s'.warnings) →
              name ∈ (visitList g f ds s').visited →
              name ∈ (visitList g f ds s').warnings := by
            intro ds
            induction ds with
            | nil =>
              intro s' _ hinv'
              rw [visitList_nil]
              exact hinv'
            | cons d t iht =>
              intro s' hs' hinv'
              rw [visitList_cons]
              exact iht (visit g f d s') (by rw [visit_temp, hs'])
                (ih d s' (by rw [hs']; exact hbound) hinv')
          have hvism := hvis
          show name ∈ (visitList g f (depsOf g m)
            { s with temp := s.temp ++ [m] }).warnings
          rcases List.mem_append.mp hvism with hin | hone
          · exact hfold (depsOf g m) { s with temp := s.temp ++ [m] } rfl hinv hin
          · rw [List.mem_singleton] at hone
            subst hone
            apply visitList_warn g f name (depsOf g name)
              { s with temp := s.temp ++ [name] }
              (mem_depsOf_self g name node hl hself)
              (by show name ∈ s.temp ++ [name]; simp)
              (by omega)
        · have hdeps : depsOf g m = [] := by
            unfold depsOf
            cases hlk : lookupKey m g with
            | none => rfl
            | some nd => exact absurd (lookupKey_some_mem m nd g hlk) hm
          rw [hdeps, visitList_nil] at hvis ⊢
          have hnm : name ≠ m := by
            rintro rfl
            exact hm (lookupKey_some_mem name node g hl)
          show name ∈ s.warnings
          rcases List.mem_append.mp hvis with hin | hone
          · exact hinv hin
          · rw [List.mem_singleton] at hone
            exact absurd hone hnm

theorem visitAllFrom_selfwarn (g : List (String × PackageInfo)) (name : String)
    (node : PackageInfo) (hl : lookupKey name g = some node)
    (hself : name ∈ allDeps node) :
    ∀ (ks : List String) (s : VisitState) (fuel : Nat), s.temp = [] →
      g.length < fuel →
      (name ∈ s.visited → name ∈ s.warnings) →
      name ∈ (visitAllFrom g fuel ks s).visited →
      name ∈ (visitAllFrom g fuel ks s).warnings := by
  intro ks
  induction ks with
  | nil =>
    intro s fuel _ _ hinv
    rw [visitAllFrom_nil]
    exact hinv
  | cons k t ih =>
    intro s fuel hst hfu hinv
    rw [visitAllFrom_cons]
    have hs' : (if k ∈ s.visited then s else visit g fuel k s).temp = [] := by
      by_cases h : k ∈ s.visited
      · rw [if_pos h]; exact hst
      · rw [if_neg h, visit_temp]; exact hst
    apply ih _ fuel hs' hfu
    by_cases h : k ∈ s.visited
    · rw [if_pos h]; exact hinv
    · rw [if_neg h]
      exact visit_selfwarn g name node hl hself fuel k s
        (by rw [hst, keysLeft_nil]; exact hfu) hinv

/-- A manifest self-loop always yields a cycle warning naming the node. -/
theorem selfLoop_warned (g : List (String × PackageInfo)) (name : String)
    (node : PackageInfo) (hl : lookupKey name g = some node)
    (hself : name ∈ allDeps node) : name ∈ (getTopologicalOrder g).2 := by
  show name ∈ (visitAll g (g.length + 1)).warnings
  have hkey := lookupKey_some_mem name node g hl
  have hvis := visitAll_visited_complete g g.length name hkey
  exact visitAllFrom_selfwarn g name node hl hself (g.map Prod.fst)
    ⟨[], [], [], []⟩ (g.length + 1) rfl (by omega) (by simp) hvis

/-! ## Claim theorems: C1, C2, C4 -/

/-- Claim C1: (code bug evidence). The claim says `getTopologicalOrder` places
every node's local dependencies strictly before that node and returns
`[C, B, A]` for Scenario D, because the post-order accumulated sequence is
already the correct build order.  The accumulated sequence is indeed
`[C, B, A]`, but the source then executes `order.reverse()`, so the function
actually returns `[A, B, C]` — each node *before* its dependencies, the exact
opposite of the claimed (and documented) build order. -/
theorem c1_reverse_breaks_build_order :
    (visitAll chainGraphD (chainGraphD.length + 1)).order = ["C", "B", "A"] ∧
    (getTopologicalOrder chainGraphD).1 = ["A", "B", "C"] := by decide

/-- Claim C2: On every graph — cyclic ones included — resolution terminates
(any fuel above the graph size computes the same, canonical result), and the
output order contains each graph node exactly once.  On the spec's Scenario B
two-node cycle, each name occurs exactly once and exactly one cycle warning
is emitted, naming "A", the node at which the cycle was re-encountered; the
embedding is total, so no fatal error is possible. -/
theorem c2_cycle_termination_and_coverage :
    (∀ (g : List (String × PackageInfo)) (fuel : Nat), g.length + 1 ≤ fuel →
      getTopologicalOrderFuel g fuel = getTopologicalOrder g) ∧
    (∀ (g : List (String × PackageInfo)) (x : String), x ∈ g.map Prod.fst →
      (getTopologicalOrder g).1.count x = 1) ∧
    getTopologicalOrder cycleGraphB = (["A", "B"], ["A"]) :=
  ⟨fun g fuel h => getTopologicalOrderFuel_stable g fuel h,
   fun g x h => getTopologicalOrder_count g x h,
   by decide⟩

theorem c2_cycle_termination_and_coverage_witness :
    getTopologicalOrderFuel cycleGraphB 10 = getTopologicalOrder cycleGraphB ∧
    (getTopologicalOrder cycleGraphB).1.count "A" = 1 ∧
    (getTopologicalOrder cycleGraphB).1.count "B" = 1 :=
  ⟨c2_cycle_termination_and_coverage.1 cycleGraphB 10 (by decide),
   c2_cycle_termination_and_coverage.2.1 cycleGraphB "A" (by decide),
   c2_cycle_termination_and_coverage.2.1 cycleGraphB "B" (by decide)⟩

/-- Claim C4: (counterexample). The claim says a `PackageNode`'s dependency
names never include the node's own name; but `getPackageInfo` copies the
manifest's dependency keys without filtering, so a manifest self-dependency
ends up in the node. -/
theorem c4_never_self_dependency_counterexample :
    "A" ∈ ((getPackageInfo envSelf "A" "/a").elim [] (fun i => i.dependencies)) := by
  decide

/-- Claim C4: (amended). A node's dependency names *do* include its own name
when the manifest declares a self-dependency (`getPackageInfo` does not
filter it); the second half of the claim holds: the order resolver treats the
self-loop as a cycle, emitting a cycle warning naming the node while still
placing it in the order exactly once. -/
theorem c4_self_loop_treated_as_cycle :
    (∀ (g : List (String × PackageInfo)) (name : String) (node : PackageInfo),
      lookupKey name g = some node → name ∈ allDeps node →
      name ∈ (getTopologicalOrder g).2 ∧ (getTopologicalOrder g).1.count name = 1) ∧
    getPackageInfo envSelf "A" "/a" = some selfNode :=
  ⟨fun g name node hl hself =>
    ⟨selfLoop_warned g name node hl hself,
     getTopologicalOrder_count g name (lookupKey_some_mem name node g hl)⟩,
   by decide⟩

theorem c4_self_loop_treated_as_cycle_witness :
    "A" ∈ (getTopologicalOrder selfGraph).2 ∧
    (getTopologicalOrder selfGraph).1.count "A" = 1 :=
  c4_self_loop_treated_as_cycle.1 selfGraph "A" selfNode (by decide) (by decide)

/-! ## Graph keys: no duplicates, subset of declarations -/

theorem mapSet_replace_keys {β : Type} (m : List (String × β)) (k : String) (v : β) :
    (m.map (fun p => if p.1 = k then (k, v) else p)).map Prod.fst = m.map Prod.fst := by
  rw [List.map_map]
  apply List.map_congr_left
  intro p _
  by_cases hp : p.1 = k
  · simp [hp]
  · simp [hp]

theorem mapSet_keys_nodup {β : Type} (m : List (String × β)) (k : String) (v : β)
    (h : (m.map Prod.fst).Nodup) : ((mapSet m k v).map Prod.fst).Nodup := by
  unfold mapSet
  by_cases hc : (m.map Prod.fst).contains k
  · rw [if_pos hc, mapSet_replace_keys]
    exact h
  · rw [if_neg hc, List.map_append]
    apply List.Nodup.append h (by simp)
    intro x hx hmem
    simp only [List.map_cons, List.map_nil, List.mem_singleton] at hmem
    subst hmem
    exact hc (List.elem_iff.mpr hx)

theorem mapSet_keys_mem {β : Type} (m : List (String × β)) (k : String) (v : β) :
    ∀ x ∈ (mapSet m k v).map Prod.fst, x ∈ m.map Prod.fst ∨ x = k := by
  unfold mapSet
  by_cases hc : (m.map Prod.fst).contains k
  · rw [if_pos hc, mapSet_replace_keys]
    exact fun x hx => Or.inl hx
  · rw [if_neg hc, List.map_append]
    intro x hx
    rcases List.mem_append.mp hx with h | h
    · exact Or.inl h
    · simp only [List.map_cons, List.map_nil, List.mem_singleton] at h
      exact Or.inr h

theorem buildGraph_keys_aux (env : Env) :
    ∀ (lp : List (String × PackageConfig)) (acc : List (String × PackageInfo)),
      ((acc.map Prod.fst).Nodup →
        ((lp.foldl (buildGraphStep env) acc).map Prod.fst).Nodup) ∧
      (∀ x ∈ (lp.foldl (buildGraphStep env) acc).map Prod.fst,
        x ∈ acc.map Prod.fst ∨ x ∈ lp.map Prod.fst) := by
  intro lp
  induction lp with
  | nil =>
    intro acc
    exact ⟨id, fun x hx => Or.inl hx⟩
  | cons p rest ih =>
    intro acc
    rw [List.foldl_cons]
    have hstep_nodup : (acc.map Prod.fst).Nodup →
        ((buildGraphStep env acc p).map Prod.fst).Nodup := by
      intro hnd
      unfold buildGraphStep
      cases getPackageInfo env p.1 p.2.path with
      | none => exact hnd
      | some info => exact mapSet_keys_nodup acc p.1 info hnd
    have hstep_mem : ∀ x ∈ (buildGraphStep env acc p).map Prod.fst,
        x ∈ acc.map Prod.fst ∨ x = p.1 := by
      unfold buildGraphStep
      cases getPackageInfo env p.1 p.2.path with
      | none => exact fun x hx => Or.inl hx
      | some info => exact mapSet_keys_mem acc p.1 info
    constructor
    · intro hnd
      exact (ih (buildGraphStep env acc p)).1 (hstep_nodup hnd)
    · intro x hx
      rcases (ih (buildGraphStep env acc p)).2 x hx with h | h
      · rcases hstep_mem x h with h2 | h2
        · exact Or.inl h2
        · exact Or.inr (h2 ▸ List.mem_cons_self ..)
      · exact Or.inr (List.mem_cons_of_mem _ h)

theorem buildDependencyGraph_keys_nodup (env : Env)
    (lp : List (String × PackageConfig)) :
    ((buildDependencyGraph env lp).map Prod.fst).Nodup :=
  (buildGraph_keys_aux env lp []).1 (by simp)

theorem buildDependencyGraph_keys_subset (env : Env)
    (lp : List (String × PackageConfig)) :
    ∀ x ∈ (buildDependencyGraph env lp).map Prod.fst, x ∈ lp.map Prod.fst := by
  intro x hx
  rcases (buildGraph_keys_aux env lp []).2 x hx with h | h
  · simp at h
  · exact h

/-- The resolved order followed by the missing stragglers is a permutation
of the declared names. -/
theorem linkOrder_perm (env : Env) (lp : List (String × PackageConfig))
    (h : (lp.map Prod.fst).Nodup) :
    List.Perm
      ((getTopologicalOrder (buildDependencyGraph env lp)).1 ++
        (lp.map Prod.fst).filter
          (fun n => decide (n ∉ (getTopologicalOrder (buildDependencyGraph env lp)).1)))
      (lp.map Prod.fst) := by
  have hO := getTopologicalOrder_nodup (buildDependencyGraph env lp)
  have hM : ((lp.map Prod.fst).filter
      (fun n => decide (n ∉ (getTopologicalOrder (buildDependencyGraph env lp)).1))).Nodup :=
    List.Nodup.filter _ h
  have hdisj : ∀ a, a ∈ (getTopologicalOrder (buildDependencyGraph env lp)).1 →
      a ∉ (lp.map Prod.fst).filter
        (fun n => decide (n ∉ (getTopologicalOrder (buildDependencyGraph env lp)).1)) := by
    intro a ha hmem
    have := (List.mem_filter.mp hmem).2
    simp only [decide_eq_true_eq] at this
    exact this ha
  have hnd : ((getTopologicalOrder (buildDependencyGraph env lp)).1 ++
      (lp.map Prod.fst).filter
        (fun n => decide (n ∉ (getTopologicalOrder (buildDependencyGraph env lp)).1))).Nodup :=
    List.Nodup.append hO hM hdisj
  have hmemiff : ∀ a, (a ∈ (getTopologicalOrder (buildDependencyGraph env lp)).1 ++
      (lp.map Prod.fst).filter
        (fun n => decide (n ∉ (getTopologicalOrder (buildDependencyGraph env lp)).1))) ↔
      a ∈ lp.map Prod.fst := by
    intro a
    constructor
    · intro ha
      rcases List.mem_append.mp ha with h1 | h1
      · exact buildDependencyGraph_keys_subset env lp a
          ((getTopologicalOrder_mem_iff (buildDependencyGraph env lp) a).mp h1)
      · exact (List.mem_filter.mp h1).1
    · intro ha
      by_cases hin : a ∈ (getTopologicalOrder (buildDependencyGraph env lp)).1
      · exact List.mem_append_left _ hin
      · exact List.mem_append_right _
          (List.mem_filter.mpr ⟨ha, by simpa using hin⟩)
  rw [List.perm_iff_count]
  intro a
  by_cases ha : a ∈ lp.map Prod.fst
  · rw [count_eq_one_of_nodup_mem hnd ((hmemiff a).mpr ha),
      count_eq_one_of_nodup_mem h ha]
  · rw [List.count_eq_zero_of_not_mem (fun hmem => ha ((hmemiff a).mp hmem)),
      List.count_eq_zero_of_not_mem ha]

/-! ## Pipeline loop lemmas -/

theorem processLoop_nil (env : Env) (lp : List (String × PackageConfig)) (acc : Bool) :
    processLoop env lp [] acc = (acc, []) := rfl

theorem processLoop_cons_none (env : Env) (lp : List (String × PackageConfig))
    (n : String) (rest : List String) (acc : Bool) (h : lookupKey n lp = none) :
    processLoop env lp (n :: rest) acc = processLoop env lp rest acc := by
  simp only [processLoop, h]

theorem processLoop_cons_build_false (env : Env) (lp : List (String × PackageConfig))
    (n : String) (rest : List String) (acc : Bool) (config : PackageConfig)
    (h : lookupKey n lp = some config) (hb : buildPackage env n config = false) :
    processLoop env lp (n :: rest) acc =
      ((processLoop env lp rest false).1,
        PipeEv.buildOutcome n false :: (processLoop env lp rest false).2) := by
  simp only [processLoop, h, hb]
  simp

theorem processLoop_cons_build_true (env : Env) (lp : List (String × PackageConfig))
    (n : String) (rest : List String) (acc : Bool) (config : PackageConfig)
    (h : lookupKey n lp = some config) (hb : buildPackage env n config = true) :
    processLoop env lp (n :: rest) acc =
      ((processLoop env lp rest (acc && linkPackage env n config)).1,
        PipeEv.buildOutcome n true :: PipeEv.linkOutcome n (linkPackage env n config) ::
          (processLoop env lp rest (acc && linkPackage env n config)).2) := by
  simp only [processLoop, h, hb]
  simp

/-- The loop's aggregated flag is the conjunction of the per-package
outcomes: exactly "success iff every processed package built and linked". -/
theorem processLoop_success (env : Env) (lp : List (String × PackageConfig)) :
    ∀ (ns : List String) (acc : Bool),
      (processLoop env lp ns acc).1 = (acc && ns.all (perPkgOk env lp)) := by
  intro ns
  induction ns with
  | nil => intro acc; rw [processLoop_nil]; simp
  | cons n rest ih =>
    intro acc
    cases hl : lookupKey n lp with
    | none =>
      rw [processLoop_cons_none env lp n rest acc hl, ih]
      simp [List.all_cons, perPkgOk, hl]
    | some config =>
      cases hb : buildPackage env n config with
      | false =>
        rw [processLoop_cons_build_false env lp n rest acc config hl hb]
        dsimp only
        rw [ih]
        simp [List.all_cons, perPkgOk, hl, hb]
      | true =>
        rw [processLoop_cons_build_true env lp n rest acc config hl hb]
        dsimp only
        rw [ih]
        simp only [List.all_cons, perPkgOk, hl, hb, Bool.true_and, Bool.and_assoc]

theorem processLoop_link_mem (env : Env) (lp : List (String × PackageConfig)) :
    ∀ (ns : List String) (acc : Bool) (n : String) (b : Bool),
      PipeEv.linkOutcome n b ∈ (processLoop env lp ns acc).2 → n ∈ ns := by
  intro ns
  induction ns with
  | nil => intro acc n b h; rw [processLoop_nil] at h; simp at h
  | cons k rest ih =>
    intro acc n b h
    cases hl : lookupKey k lp with
    | none =>
      rw [processLoop_cons_none env lp k rest acc hl] at h
      exact List.mem_cons_of_mem _ (ih acc n b h)
    | some config =>
      cases hb : buildPackage env k config with
      | false =>
        rw [processLoop_cons_build_false env lp k rest acc config hl hb] at h
        dsimp only at h
        rcases List.mem_cons.mp h with h1 | h1
        · exact absurd h1 (by simp)
        · exact List.mem_cons_of_mem _ (ih false n b h1)
      | true =>
        rw [processLoop_cons_build_true env lp k rest acc config hl hb] at h
        dsimp only at h
        rcases List.mem_cons.mp h with h1 | h1
        · exact absurd h1 (by simp)
        · rcases List.mem_cons.mp h1 with h2 | h2
          · have : n = k := (PipeEv.linkOutcome.inj h2).1
            exact this ▸ List.mem_cons_self ..
          · exact List.mem_cons_of_mem _
              (ih (acc && linkPackage env k config) n b h2)

theorem processLoop_build_mem (env : Env) (lp : List (String × PackageConfig)) :
    ∀ (ns : List String) (acc : Bool) (n : String) (b : Bool),
      PipeEv.buildOutcome n b ∈ (processLoop env lp ns acc).2 → n ∈ ns := by
  intro ns
  induction ns with
  | nil => intro acc n b h; rw [processLoop_nil] at h; simp at h
  | cons k rest ih =>
    intro acc n b h
    cases hl : lookupKey k lp with
    | none =>
      rw [processLoop_cons_none env lp k rest acc hl] at h
      exact List.mem_cons_of_mem _ (ih acc n b h)
    | some config =>
      cases hb : buildPackage env k config with
      | false =>
        rw [processLoop_cons_build_false env lp k rest acc config hl hb] at h
        dsimp only at h
        rcases List.mem_cons.mp h with h1 | h1
        · have : n = k := (PipeEv.buildOutcome.inj h1).1
          exact this ▸ List.mem_cons_self ..
        · exact List.mem_cons_of_mem _ (ih false n b h1)
      | true =>
        rw [processLoop_cons_build_true env lp k rest acc config hl hb] at h
        dsimp only at h
        rcases List.mem_cons.mp h with h1 | h1
        · have : n = k := (PipeEv.buildOutcome.inj h1).1
          exact this ▸ List.mem_cons_self ..
        · rcases List.mem_cons.mp h1 with h2 | h2
          · exact absurd h2 (by simp)
          · exact List.mem_cons_of_mem _
              (ih (acc && linkPackage env k config) n b h2)

theorem processLoop_build_event (env : Env) (lp : List (String × PackageConfig)) :
    ∀ (ns : List String) (acc : Bool) (n : String) (config : PackageConfig),
      n ∈ ns → lookupKey n lp = some config →
      ∃ b, PipeEv.buildOutcome n b ∈ (processLoop env lp ns acc).2 := by
  intro ns
  induction ns with
  | nil => intro acc n config h; simp at h
  | cons k rest ih =>
    intro acc n config hmem hl
    rcases List.mem_cons.mp hmem with rfl | hrest
    · cases hb : buildPackage env n config with
      | false =>
        rw [processLoop_cons_build_false env lp n rest acc config hl hb]
        exact ⟨false, by simp⟩
      | true =>
        rw [processLoop_cons_build_true env lp n rest acc config hl hb]
        exact ⟨true, by simp⟩
    · cases hlk : lookupKey k lp with
      | none =>
        rw [processLoop_cons_none env lp k rest acc hlk]
        exact ih acc n config hrest hl
      | some kc =>
        cases hb : buildPackage env k kc with
        | false =>
          rw [processLoop_cons_build_false env lp k rest acc kc hlk hb]
          obtain ⟨b, hbmem⟩ := ih false n config hrest hl
          exact ⟨b, List.mem_cons_of_mem _ hbmem⟩
        | true =>
          rw [processLoop_cons_build_true env lp k rest acc kc hlk hb]
          obtain ⟨b, hbmem⟩ := ih (acc && linkPackage env k kc) n config hrest hl
          exact ⟨b, List.mem_cons_of_mem _ (List.mem_cons_of_mem _ hbmem)⟩

/-- On build failure the link step of that package is skipped: no link
outcome for a package whose build failed (duplicate-free processing order). -/
theorem processLoop_skip_link (env : Env) (lp : List (String × PackageConfig)) :
    ∀ (ns : List String) (acc : Bool) (n : String), ns.Nodup →
      PipeEv.buildOutcome n false ∈ (processLoop env lp ns acc).2 →
      ∀ b, PipeEv.linkOutcome n b ∉ (processLoop env lp ns acc).2 := by
  intro ns
  induction ns with
  | nil => intro acc n _ h; rw [processLoop_nil] at h; simp at h
  | cons k rest ih =>
    intro acc n hnd hbf b hlk0
    rw [List.nodup_cons] at hnd
    cases hl : lookupKey k lp with
    | none =>
      rw [processLoop_cons_none env lp k rest acc hl] at hbf hlk0
      exact ih acc n hnd.2 hbf b hlk0
    | some config =>
      cases hb : buildPackage env k config with
      | false =>
        rw [processLoop_cons_build_false env lp k rest acc config hl hb] at hbf hlk0
        dsimp only at hbf hlk0
        rcases List.mem_cons.mp hlk0 with h1 | h1
        · exact absurd h1 (by simp)
        · have hn : n ∈ rest := processLoop_link_mem env lp rest false n b h1
          rcases List.mem_cons.mp hbf with h2 | h2
          · have : n = k := (PipeEv.buildOutcome.inj h2).1
            exact hnd.1 (this ▸ hn)
          · exact ih false n hnd.2 h2 b h1
      | true =>
        rw [processLoop_cons_build_true env lp k rest acc config hl hb] at hbf hlk0
        dsimp only at hbf hlk0
        have hbf' : PipeEv.buildOutcome n false ∈
            (processLoop env lp rest (acc && linkPackage env k config)).2 := by
          rcases List.mem_cons.mp hbf with h2 | h2
          · exact absurd h2 (by simp)
          · rcases List.mem_cons.mp h2 with h3 | h3
            · exact absurd h3 (by simp)
            · exact h3
        have hn : n ∈ rest :=
          processLoop_build_mem env lp rest (acc && linkPackage env k config) n false hbf'
        rcases List.mem_cons.mp hlk0 with h1 | h1
        · exact absurd h1 (by simp)
        · rcases List.mem_cons.mp h1 with h2 | h2
          · have : n = k := (PipeEv.linkOutcome.inj h2).1
            exact hnd.1 (this ▸ hn)
          · exact ih (acc && linkPackage env k config) n hnd.2 hbf' b h2

theorem lookupKey_of_mem_keys {β : Type} (n : String) :
    ∀ m : List (String × β), n ∈ m.map Prod.fst → ∃ v, lookupKey n m = some v := by
  intro m
  induction m with
  | nil => intro h; simp at h
  | cons p rest ih =>
    intro h
    by_cases hp : p.1 = n
    · exact ⟨p.2, by simp [lookupKey, hp]⟩
    · simp only [List.map_cons, List.mem_cons] at h
      rcases h with h | h
      · exact absurd h.symm hp
      · obtain ⟨v, hv⟩ := ih h
        exact ⟨v, by simp [lookupKey, hp, hv]⟩

theorem all_congr_of_perm {p : String → Bool} {l1 l2 : List String}
    (h : List.Perm l1 l2) : l1.all p = l2.all p := by
  cases hb : l2.all p
  · cases ha : l1.all p
    · rfl
    · exfalso
      rw [List.all_eq_true] at ha
      have hc : l2.all p = true :=
        List.all_eq_true.mpr (fun x hx => ha x (h.mem_iff.mpr hx))
      rw [hc] at hb
      cases hb
  · rw [List.all_eq_true] at hb
    exact List.all_eq_true.mpr (fun x hx => hb x (h.mem_iff.mp hx))

/-! ## `linkAllPackages` unfolding and claim theorems C3, C7, C10 -/

theorem linkAllPackages_plain (env : Env) (lp : List (String × PackageConfig))
    (h : lp ≠ []) :
    linkAllPackages env lp false =
      ((processLoop env lp (lp.map Prod.fst) true).1,
        (processLoop env lp (lp.map Prod.fst) true).2) := by
  unfold linkAllPackages
  rw [if_neg (by simpa [List.length_eq_zero] using h)]
  rfl

theorem linkAllPackages_resolved (env : Env) (lp : List (String × PackageConfig))
    (h : lp ≠ []) :
    linkAllPackages env lp true =
      ((processLoop env lp
          ((getTopologicalOrder (buildDependencyGraph env lp)).1 ++
            (lp.map Prod.fst).filter (fun n =>
              decide (n ∉ (getTopologicalOrder (buildDependencyGraph env lp)).1)))
          true).1,
        ((getTopologicalOrder (buildDependencyGraph env lp)).2.map PipeEv.cycleWarn ++
          (if ((lp.map Prod.fst).filter (fun n =>
              decide (n ∉ (getTopologicalOrder (buildDependencyGraph env lp)).1))).length = 0
            then [] else
              [PipeEv.missingWarn ((lp.map Prod.fst).filter (fun n =>
                decide (n ∉ (getTopologicalOrder (buildDependencyGraph env lp)).1)))])) ++
          (processLoop env lp
            ((getTopologicalOrder (buildDependencyGraph env lp)).1 ++
              (lp.map Prod.fst).filter (fun n =>
                decide (n ∉ (getTopologicalOrder (buildDependencyGraph env lp)).1)))
            true).2) := by
  unfold linkAllPackages
  rw [if_neg (by simpa [List.length_eq_zero] using h)]
  rfl

theorem pre_events_no_build (ws missing : List String) (n : String) (b : Bool) :
    PipeEv.buildOutcome n b ∉
      ws.map PipeEv.cycleWarn ++
        (if missing.length = 0 then [] else [PipeEv.missingWarn missing]) := by
  intro h
  rcases List.mem_append.mp h with h1 | h1
  · obtain ⟨a, _, ha⟩ := List.mem_map.mp h1
    cases ha
  · by_cases hm : missing.length = 0
    · rw [if_pos hm] at h1; simp at h1
    · rw [if_neg hm] at h1; simp at h1

theorem pre_events_no_link (ws missing : List String) (n : String) (b : Bool) :
    PipeEv.linkOutcome n b ∉
      ws.map PipeEv.cycleWarn ++
        (if missing.length = 0 then [] else [PipeEv.missingWarn missing]) := by
  intro h
  rcases List.mem_append.mp h with h1 | h1
  · obtain ⟨a, _, ha⟩ := List.mem_map.mp h1
    cases ha
  · by_cases hm : missing.length = 0
    · rw [if_pos hm] at h1; simp at h1
    · rw [if_neg hm] at h1; simp at h1

/-- Claim C3: Declared names absent from the resolver's output are appended
after the resolved order (the appended list is a sublist of the declaration
order, hence in declaration order), after a warning naming exactly those
packages; the final processing order is a permutation of the declared names
(same name set, no duplicates).  Concretely, Scenario C: with A readable and
B manifest-less the run processes `[A, B]` and warns about B. -/
theorem c3_missing_packages_appended :
    (∀ (env : Env) (lp : List (String × PackageConfig)), (lp.map Prod.fst).Nodup →
      List.Perm
        ((getTopologicalOrder (buildDependencyGraph env lp)).1 ++
          (lp.map Prod.fst).filter (fun n =>
            decide (n ∉ (getTopologicalOrder (buildDependencyGraph env lp)).1)))
        (lp.map Prod.fst)) ∧
    (∀ (env : Env) (lp : List (String × PackageConfig)),
      List.Sublist
        ((lp.map Prod.fst).filter (fun n =>
          decide (n ∉ (getTopologicalOrder (buildDependencyGraph env lp)).1)))
        (lp.map Prod.fst)) ∧
    (∀ (env : Env) (lp : List (String × PackageConfig)),
      (lp.map Prod.fst).filter (fun n =>
        decide (n ∉ (getTopologicalOrder (buildDependencyGraph env lp)).1)) ≠ [] →
      PipeEv.missingWarn ((lp.map Prod.fst).filter (fun n =>
        decide (n ∉ (getTopologicalOrder (buildDependencyGraph env lp)).1))) ∈
        (linkAllPackages env lp true).2) ∧
    linkAllPackages envC lpC true =
      (false, [PipeEv.missingWarn ["B"], PipeEv.buildOutcome "A" true,
               PipeEv.linkOutcome "A" true, PipeEv.buildOutcome "B" false]) := by
  refine ⟨fun env lp h => linkOrder_perm env lp h,
    fun env lp => List.filter_sublist _, ?_, by decide⟩
  intro env lp hm
  have hne : lp ≠ [] := by
    intro h0
    subst h0
    simp at hm
  rw [linkAllPackages_resolved env lp hne]
  apply List.mem_append_left
  apply List.mem_append_right
  rw [if_neg (by simpa [List.length_eq_zero] using hm)]
  simp

theorem c3_missing_packages_appended_witness :
    List.Perm
      ((getTopologicalOrder (buildDependencyGraph envC lpC)).1 ++
        (lpC.map Prod.fst).filter (fun n =>
          decide (n ∉ (getTopologicalOrder (buildDependencyGraph envC lpC)).1)))
      (lpC.map Prod.fst) ∧
    PipeEv.missingWarn ((lpC.map Prod.fst).filter (fun n =>
      decide (n ∉ (getTopologicalOrder (buildDependencyGraph envC lpC)).1))) ∈
      (linkAllPackages envC lpC true).2 :=
  ⟨c3_missing_packages_appended.1 envC lpC (by decide),
   c3_missing_packages_appended.2.2.1 envC lpC (by decide)⟩

/-- Claim C7: (counterexample).  The claim's "success = true iff every declared
package built and linked" fails for the empty declaration set: every package
of `[]` trivially built and linked, yet `linkAllPackages` returns `false`
(the source checks `length === 0` and returns `false` early). -/
theorem c7_empty_set_counterexample :
    (linkAllPackages envTrivial [] false).1 = false ∧
    (([] : List (String × PackageConfig)).map Prod.fst).all
      (perPkgOk envTrivial []) = true := by decide

/-- Claim C7: (amended: nonempty declaration sets).  For every nonempty declared
set, the run succeeds iff every declared package's build and link steps both
succeeded; a package whose build failed gets no link attempt, while every
declared package still gets a build attempt (processing continues); the
embedding is total, so no process-fatal exception exists. -/
theorem c7_success_iff_every_build_and_link :
    ∀ (env : Env) (lp : List (String × PackageConfig)) (rd : Bool),
      lp ≠ [] → (lp.map Prod.fst).Nodup →
      ((linkAllPackages env lp rd).1 = (lp.map Prod.fst).all (perPkgOk env lp)) ∧
      (∀ n, PipeEv.buildOutcome n false ∈ (linkAllPackages env lp rd).2 →
        ∀ b, PipeEv.linkOutcome n b ∉ (linkAllPackages env lp rd).2) ∧
      (∀ n ∈ lp.map Prod.fst, ∃ b,
        PipeEv.buildOutcome n b ∈ (linkAllPackages env lp rd).2) := by
  intro env lp rd hne hnd
  cases rd with
  | false =>
    rw [linkAllPackages_plain env lp hne]
    refine ⟨?_, ?_, ?_⟩
    · rw [processLoop_success]
      simp
    · intro n hbf b
      exact processLoop_skip_link env lp (lp.map Prod.fst) true n hnd hbf b
    · intro n hn
      obtain ⟨config, hc⟩ := lookupKey_of_mem_keys n lp hn
      exact processLoop_build_event env lp (lp.map Prod.fst) true n config hn hc
  | true =>
    rw [linkAllPackages_resolved env lp hne]
    have hperm := linkOrder_perm env lp hnd
    have hndns : ((getTopologicalOrder (buildDependencyGraph env lp)).1 ++
        (lp.map Prod.fst).filter (fun n =>
          decide (n ∉ (getTopologicalOrder (buildDependencyGraph env lp)).1))).Nodup :=
      hperm.nodup_iff.mpr hnd
    refine ⟨?_, ?_, ?_⟩
    · rw [processLoop_success]
      rw [all_congr_of_perm hperm]
      simp
    · intro n hbf b hlmem
      rcases List.mem_append.mp hbf with h1 | h1
      · exact pre_events_no_build _ _ n false h1
      · rcases List.mem_append.mp hlmem with h2 | h2
        · exact pre_events_no_link _ _ n b h2
        · exact processLoop_skip_link env lp _ true n hndns h1 b h2
    · intro n hn
      obtain ⟨config, hc⟩ := lookupKey_of_mem_keys n lp hn
      obtain ⟨b, hb⟩ := processLoop_build_event env lp
        ((getTopologicalOrder (buildDependencyGraph env lp)).1 ++
          (lp.map Prod.fst).filter (fun n =>
            decide (n ∉ (getTopologicalOrder (buildDependencyGraph env lp)).1)))
        true n config (hperm.mem_iff.mpr hn) hc
      exact ⟨b, List.mem_append_right _ hb⟩

theorem c7_success_iff_every_build_and_link_witness :
    (linkAllPackages envC lpC true).1 = (lpC.map Prod.fst).all (perPkgOk envC lpC) :=
  (c7_success_iff_every_build_and_link envC lpC true (by decide) (by decide)).1

/-- Claim C10: A package whose declaration has no custom build command and
whose parsed manifest has no `scripts.build` entry builds successfully
without any build-command invocation: the result is `true` for *every*
environment, in particular whatever `runBuild` would return. -/
theorem c10_scriptless_build_succeeds :
    ∀ (env : Env) (name : String) (config : PackageConfig) (pj : PackageJson),
      env.fileExists (if env.isAbsolute config.path then config.path
        else env.resolvePath env.cwd config.path) = true →
      env.fileExists (env.joinPath (if env.isAbsolute config.path then config.path
        else env.resolvePath env.cwd config.path) "package.json") = true →
      env.parseJson (env.joinPath (if env.isAbsolute config.path then config.path
        else env.resolvePath env.cwd config.path) "package.json") = some pj →
      config.buildCommand = none → pj.scriptsBuild = none →
      buildPackage env name config = true := by
  intro env name config pj h1 h2 h3 h4 h5
  simp [buildPackage, h1, h2, h3, h4, h5]

theorem c10_scriptless_build_succeeds_witness :
    buildPackage envScriptless "pkg" ⟨"/pkg", none, none⟩ = true :=
  c10_scriptless_build_succeeds envScriptless "pkg" ⟨"/pkg", none, none⟩
    ⟨[], [], [], none⟩ (by decide) (by decide) (by decide) rfl rfl

/-! ## Expander lemmas -/

theorem rec_zero (env : Env) (name : String) (config : PackageConfig)
    (depth : Nat) (processed : List String) :
    processPackageRecursively env 0 name config depth processed = (processed, []) := rfl

theorem rec_guard (env : Env) (fuel : Nat) (name : String) (config : PackageConfig)
    (depth : Nat) (processed : List String)
    (h : (name ++ ":" ++ config.path) ∈ processed) :
    processPackageRecursively env (fuel + 1) name config depth processed =
      (processed, []) := by
  simp only [processPackageRecursively, if_pos h]

theorem rec_noconfig (env : Env) (fuel : Nat) (name : String) (config : PackageConfig)
    (depth : Nat) (processed : List String)
    (h : (name ++ ":" ++ config.path) ∉ processed)
    (hc : env.fileExists (env.joinPath (if env.isAbsolute config.path then config.path
      else env.resolvePath env.cwd config.path) CONFIG_FILE) = false) :
    processPackageRecursively env (fuel + 1) name config depth processed =
      (processed ++ [name ++ ":" ++ config.path],
       [RecEv.expand (name ++ ":" ++ config.path),
        RecEv.expandDir name (if env.isAbsolute config.path then config.path
          else env.resolvePath env.cwd config.path)]) := by
  simp only [processPackageRecursively, if_neg h, hc]
  simp

theorem rec_nodeps (env : Env) (fuel : Nat) (name : String) (config : PackageConfig)
    (depth : Nat) (processed : List String)
    (h : (name ++ ":" ++ config.path) ∉ processed)
    (hc : env.fileExists (env.joinPath (if env.isAbsolute config.path then config.path
      else env.resolvePath env.cwd config.path) CONFIG_FILE) = true)
    (hd : env.readConfigIn (if env.isAbsolute config.path then config.path
      else env.resolvePath env.cwd config.path) = []) :
    processPackageRecursively env (fuel + 1) name config depth processed =
      (processed ++ [name ++ ":" ++ config.path],
       [RecEv.expand (name ++ ":" ++ config.path),
        RecEv.expandDir name (if env.isAbsolute config.path then config.path
          else env.resolvePath env.cwd config.path),
        RecEv.checking depth name]) := by
  simp only [processPackageRecursively, if_neg h, hc, hd]
  simp

theorem rec_main (env : Env) (fuel : Nat) (name : String) (config : PackageConfig)
    (depth : Nat) (processed : List String)
    (h : (name ++ ":" ++ config.path) ∉ processed)
    (hc : env.fileExists (env.joinPath (if env.isAbsolute config.path then config.path
      else env.resolvePath env.cwd config.path) CONFIG_FILE) = true)
    (hd : env.readConfigIn (if env.isAbsolute config.path then config.path
      else env.resolvePath env.cwd config.path) ≠ []) :
    processPackageRecursively env (fuel + 1) name config depth processed =
      processDeps env fuel name (if env.isAbsolute config.path then config.path
          else env.resolvePath env.cwd config.path) depth
        (env.readConfigIn (if env.isAbsolute config.path then config.path
          else env.resolvePath env.cwd config.path))
        (processed ++ [name ++ ":" ++ config.path],
         [RecEv.expand (name ++ ":" ++ config.path),
          RecEv.expandDir name (if env.isAbsolute config.path then config.path
            else env.resolvePath env.cwd config.path),
          RecEv.checking depth name,
          RecEv.found depth (env.readConfigIn (if env.isAbsolute config.path then
            config.path else env.resolvePath env.cwd config.path)).length name]) := by
  have hlen : ¬((env.readConfigIn (if env.isAbsolute config.path then config.path
      else env.resolvePath env.cwd config.path)).length = 0) := by
    simpa [List.length_eq_zero] using hd
  simp only [processPackageRecursively, if_neg h, hc]
  rw [if_neg hlen]
  rfl

theorem processDeps_nil (env : Env) (fuel : Nat) (n a : String) (d : Nat)
    (acc : List String × List RecEv) :
    processDeps env fuel n a d [] acc = acc := rfl

theorem processDeps_cons (env : Env) (fuel : Nat) (n a : String) (d : Nat)
    (dep : String × PackageConfig) (t : List (String × PackageConfig))
    (p : List String) (e : List RecEv) :
    processDeps env fuel n a d (dep :: t) (p, e) =
      processDeps env fuel n a d t
        ((processPackageRecursively env fuel dep.1
            ⟨resolveNested env a dep.2.path, dep.2.buildCommand, dep.2.watchPatterns⟩ (d + 1) p).1,
         e ++ [RecEv.building (d + 1) dep.1 n (resolveNested env a dep.2.path),
               RecEv.linking (d + 1) dep.1 n,
               RecEv.globalLink (resolveNested env a dep.2.path) dep.1,
               RecEv.linkInto a dep.1] ++
           (processPackageRecursively env fuel dep.1
             ⟨resolveNested env a dep.2.path, dep.2.buildCommand, dep.2.watchPatterns⟩ (d + 1) p).2) := rfl

/-- The dependency loop only appends to the event accumulator; the processed
set it produces does not depend on the accumulated events. -/
theorem processDeps_acc (env : Env) (fuel : Nat) (n a : String) (d : Nat) :
    ∀ (ds : List (String × PackageConfig)) (p : List String) (e : List RecEv),
      (processDeps env fuel n a d ds (p, e)).1 =
        (processDeps env fuel n a d ds (p, [])).1 ∧
      (processDeps env fuel n a d ds (p, e)).2 =
        e ++ (processDeps env fuel n a d ds (p, [])).2 := by
  intro ds
  induction ds with
  | nil => intro p e; exact ⟨rfl, by rw [processDeps_nil, processDeps_nil]; simp⟩
  | cons dep t ih =>
    intro p e
    rw [processDeps_cons, processDeps_cons]
    obtain ⟨ihp1, ihe1⟩ := ih
      (processPackageRecursively env fuel dep.1
        ⟨resolveNested env a dep.2.path, dep.2.buildCommand, dep.2.watchPatterns⟩ (d + 1) p).1
      (e ++ [RecEv.building (d + 1) dep.1 n (resolveNested env a dep.2.path),
             RecEv.linking (d + 1) dep.1 n,
             RecEv.globalLink (resolveNested env a dep.2.path) dep.1,
             RecEv.linkInto a dep.1] ++
        (processPackageRecursively env fuel dep.1
          ⟨resolveNested env a dep.2.path, dep.2.buildCommand, dep.2.watchPatterns⟩ (d + 1) p).2)
    obtain ⟨ihp2, ihe2⟩ := ih
      (processPackageRecursively env fuel dep.1
        ⟨resolveNested env a dep.2.path, dep.2.buildCommand, dep.2.watchPatterns⟩ (d + 1) p).1
      ([] ++ [RecEv.building (d + 1) dep.1 n (resolveNested env a dep.2.path),
              RecEv.linking (d + 1) dep.1 n,
              RecEv.globalLink (resolveNested env a dep.2.path) dep.1,
              RecEv.linkInto a dep.1] ++
        (processPackageRecursively env fuel dep.1
          ⟨resolveNested env a dep.2.path, dep.2.buildCommand, dep.2.watchPatterns⟩ (d + 1) p).2)
    constructor
    · rw [ihp1, ihp2]
    · rw [ihe1, ihe2]
      simp [List.append_assoc]

/-- Count inequality for the dependency loop, assuming it for the recursive
calls one fuel level down. -/
theorem processDeps_expand_count (env : Env) (f : Nat) (n a : String) (d : Nat)
    (ih : ∀ (name : String) (config : PackageConfig) (depth : Nat)
      (processed : List String) (k : String),
      (processPackageRecursively env f name config depth processed).2.count
          (RecEv.expand k) + (if k ∈ processed then 1 else 0) ≤
        (if k ∈ (processPackageRecursively env f name config depth processed).1
          then 1 else 0)) :
    ∀ (ds : List (String × PackageConfig)) (p : List String) (k : String),
      (processDeps env f n a d ds (p, [])).2.count (RecEv.expand k) +
        (if k ∈ p then 1 else 0) ≤
      (if k ∈ (processDeps env f n a d ds (p, [])).1 then 1 else 0) := by
  intro ds
  induction ds with
  | nil =>
    intro p k
    rw [processDeps_nil]
    simp
  | cons dep t iht =>
    intro p k
    rw [processDeps_cons]
    obtain ⟨hp, he⟩ := processDeps_acc env f n a d t
      ((processPackageRecursively env f dep.1
        ⟨resolveNested env a dep.2.path, dep.2.buildCommand, dep.2.watchPatterns⟩ (d + 1) p).1)
      ([] ++ [RecEv.building (d + 1) dep.1 n (resolveNested env a dep.2.path),
        RecEv.linking (d + 1) dep.1 n,
        RecEv.globalLink (resolveNested env a dep.2.path) dep.1,
        RecEv.linkInto a dep.1] ++
        (processPackageRecursively env f dep.1
          ⟨resolveNested env a dep.2.path, dep.2.buildCommand, dep.2.watchPatterns⟩ (d + 1) p).2)
    rw [hp, he]
    have hrec := ih dep.1 ⟨resolveNested env a dep.2.path, dep.2.buildCommand, dep.2.watchPatterns⟩
      (d + 1) p k
    have hrest := iht ((processPackageRecursively env f dep.1
      ⟨resolveNested env a dep.2.path, dep.2.buildCommand, dep.2.watchPatterns⟩ (d + 1) p).1) k
    have hfour : ([RecEv.building (d + 1) dep.1 n (resolveNested env a dep.2.path),
        RecEv.linking (d + 1) dep.1 n,
        RecEv.globalLink (resolveNested env a dep.2.path) dep.1,
        RecEv.linkInto a dep.1] : List RecEv).count (RecEv.expand k) = 0 :=
      List.count_eq_zero.mpr (by simp)
    simp only [List.nil_append, List.count_append, hfour]
    omega

/-- The count inequality that makes the processed-set guard inductive: the
number of `expand k` events, plus one if `k` was already processed, never
exceeds one if `k` ends up processed (and hence never exceeds one). -/
theorem rec_expand_count (env : Env) : ∀ (fuel : Nat) (name : String)
    (config : PackageConfig) (depth : Nat) (processed : List String) (k : String),
    (processPackageRecursively env fuel name config depth processed).2.count
        (RecEv.expand k) +
      (if k ∈ processed then 1 else 0) ≤
    (if k ∈ (processPackageRecursively env fuel name config depth processed).1
      then 1 else 0) := by
  intro fuel
  induction fuel with
  | zero =>
    intro name config depth processed k
    rw [rec_zero]
    simp
  | succ f ih =>
    intro name config depth processed k
    have hfold := processDeps_expand_count env f name
      (if env.isAbsolute config.path then config.path
        else env.resolvePath env.cwd config.path) depth ih
    by_cases hg : (name ++ ":" ++ config.path) ∈ processed
    · rw [rec_guard env f name config depth processed hg]
      simp
    · by_cases hc : env.fileExists (env.joinPath (if env.isAbsolute config.path then
        config.path else env.resolvePath env.cwd config.path) CONFIG_FILE)
      · by_cases hd : env.readConfigIn (if env.isAbsolute config.path then config.path
          else env.resolvePath env.cwd config.path) = []
        · rw [rec_nodeps env f name config depth processed hg hc hd]
          by_cases hk : k = name ++ ":" ++ config.path
          · subst hk
            rw [if_neg hg, if_pos (show (name ++ ":" ++ config.path) ∈
              processed ++ [name ++ ":" ++ config.path] from by simp)]
            have h1 : ([RecEv.expand (name ++ ":" ++ config.path),
                RecEv.expandDir name (if env.isAbsolute config.path then config.path
                  else env.resolvePath env.cwd config.path),
                RecEv.checking depth name] : List RecEv).count
                (RecEv.expand (name ++ ":" ++ config.path)) = 1 := by
              simp [List.count_cons]
            simp only [h1]
            omega
          · have : ([RecEv.expand (name ++ ":" ++ config.path),
                RecEv.expandDir name (if env.isAbsolute config.path then config.path
                  else env.resolvePath env.cwd config.path),
                RecEv.checking depth name] : List RecEv).count (RecEv.expand k) = 0 :=
              List.count_eq_zero.mpr (by simp [hk])
            simp only [this]
            have hmem : (k ∈ processed ++ [name ++ ":" ++ config.path]) ↔
                k ∈ processed := by
              simp [hk]
            by_cases hkp : k ∈ processed
            · rw [if_pos hkp, if_pos (hmem.mpr hkp)]
            · rw [if_neg hkp, if_neg (fun hx => hkp (hmem.mp hx))]
        · rw [rec_main env f name config depth processed hg hc hd]
          obtain ⟨hp, he⟩ := processDeps_acc env f name _ depth
            (env.readConfigIn (if env.isAbsolute config.path then config.path
              else env.resolvePath env.cwd config.path))
            (processed ++ [name ++ ":" ++ config.path])
            [RecEv.expand (name ++ ":" ++ config.path),
             RecEv.expandDir name (if env.isAbsolute config.path then config.path
               else env.resolvePath env.cwd config.path),
             RecEv.checking depth name,
             RecEv.found depth (env.readConfigIn (if env.isAbsolute config.path then
               config.path else env.resolvePath env.cwd config.path)).length name]
          rw [hp, he, List.count_append]
          have hfold2 := hfold (env.readConfigIn (if env.isAbsolute config.path then
            config.path else env.resolvePath env.cwd config.path))
            (processed ++ [name ++ ":" ++ config.path]) k
          by_cases hk : k = name ++ ":" ++ config.path
          · subst hk
            have h3 : ([RecEv.expand (name ++ ":" ++ config.path),
                RecEv.expandDir name (if env.isAbsolute config.path then config.path
                  else env.resolvePath env.cwd config.path),
                RecEv.checking depth name,
                RecEv.found depth (env.readConfigIn (if env.isAbsolute config.path then
                  config.path else env.resolvePath env.cwd config.path)).length name] :
                List RecEv).count (RecEv.expand (name ++ ":" ++ config.path)) = 1 := by
              simp [List.count_cons]
            rw [h3, if_neg hg]
            have hin : (if (name ++ ":" ++ config.path) ∈
                processed ++ [name ++ ":" ++ config.path] then 1 else 0) = 1 :=
              if_pos (by simp)
            rw [hin] at hfold2
            omega
          · have h3 : ([RecEv.expand (name ++ ":" ++ config.path),
                RecEv.expandDir name (if env.isAbsolute config.path then config.path
                  else env.resolvePath env.cwd config.path),
                RecEv.checking depth name,
                RecEv.found depth (env.readConfigIn (if env.isAbsolute config.path then
                  config.path else env.resolvePath env.cwd config.path)).length name] :
                List RecEv).count (RecEv.expand k) = 0 :=
              List.count_eq_zero.mpr (by simp [hk])
            rw [h3]
            have hmem : (k ∈ processed ++ [name ++ ":" ++ config.path]) ↔
                k ∈ processed := by
              simp [hk]
            by_cases hkp : k ∈ processed
            · rw [if_pos (hmem.mpr hkp)] at hfold2
              rw [if_pos hkp]
              omega
            · rw [if_neg (fun hx => hkp (hmem.mp hx))] at hfold2
              rw [if_neg hkp]
              omega
      · rw [rec_noconfig env f name config depth processed hg
          (by simpa using hc)]
        by_cases hk : k = name ++ ":" ++ config.path
        · subst hk
          rw [if_neg hg, if_pos (show (name ++ ":" ++ config.path) ∈
            processed ++ [name ++ ":" ++ config.path] from by simp)]
          have h1 : ([RecEv.expand (name ++ ":" ++ config.path),
              RecEv.expandDir name (if env.isAbsolute config.path then config.path
                else env.resolvePath env.cwd config.path)] : List RecEv).count
              (RecEv.expand (name ++ ":" ++ config.path)) = 1 := by
            simp [List.count_cons]
          simp only [h1]
          omega
        · have : ([RecEv.expand (name ++ ":" ++ config.path),
              RecEv.expandDir name (if env.isAbsolute config.path then config.path
                else env.resolvePath env.cwd config.path)] : List RecEv).count
              (RecEv.expand k) = 0 :=
            List.count_eq_zero.mpr (by simp [hk])
          simp only [this]
          have hmem : (k ∈ processed ++ [name ++ ":" ++ config.path]) ↔
              k ∈ processed := by
            simp [hk]
          by_cases hkp : k ∈ processed
          · rw [if_pos hkp, if_pos (hmem.mpr hkp)]
          · rw [if_neg hkp, if_neg (fun hx => hkp (hmem.mp hx))]

theorem linkRecursiveDependencies_eq (env : Env) (fuel : Nat)
    (lps : List (String × PackageConfig)) :
    linkRecursiveDependencies env fuel lps = linkRecAux env fuel lps ([], []) := rfl

theorem linkRecAux_nil (env : Env) (fuel : Nat) (acc : List String × List RecEv) :
    linkRecAux env fuel [] acc = acc := rfl

theorem linkRecAux_cons (env : Env) (fuel : Nat) (p : String × PackageConfig)
    (t : List (String × PackageConfig)) (pr : List String) (e : List RecEv) :
    linkRecAux env fuel (p :: t) (pr, e) =
      linkRecAux env fuel t
        ((processPackageRecursively env fuel p.1 p.2 0 pr).1,
         e ++ (processPackageRecursively env fuel p.1 p.2 0 pr).2) := rfl

theorem linkRecAux_acc (env : Env) (fuel : Nat) :
    ∀ (lps : List (String × PackageConfig)) (pr : List String) (e : List RecEv),
      (linkRecAux env fuel lps (pr, e)).1 = (linkRecAux env fuel lps (pr, [])).1 ∧
      (linkRecAux env fuel lps (pr, e)).2 =
        e ++ (linkRecAux env fuel lps (pr, [])).2 := by
  intro lps
  induction lps with
  | nil => intro pr e; exact ⟨rfl, by rw [linkRecAux_nil, linkRecAux_nil]; simp⟩
  | cons p t ih =>
    intro pr e
    rw [linkRecAux_cons, linkRecAux_cons]
    obtain ⟨ihp1, ihe1⟩ := ih (processPackageRecursively env fuel p.1 p.2 0 pr).1
      (e ++ (processPackageRecursively env fuel p.1 p.2 0 pr).2)
    obtain ⟨ihp2, ihe2⟩ := ih (processPackageRecursively env fuel p.1 p.2 0 pr).1
      ([] ++ (processPackageRecursively env fuel p.1 p.2 0 pr).2)
    exact ⟨by rw [ihp1, ihp2], by rw [ihe1, ihe2]; simp⟩

theorem linkRecAux_expand_count (env : Env) (fuel : Nat) :
    ∀ (lps : List (String × PackageConfig)) (pr : List String) (k : String),
      (linkRecAux env fuel lps (pr, [])).2.count (RecEv.expand k) +
        (if k ∈ pr then 1 else 0) ≤
      (if k ∈ (linkRecAux env fuel lps (pr, [])).1 then 1 else 0) := by
  intro lps
  induction lps with
  | nil =>
    intro pr k
    rw [linkRecAux_nil]
    simp
  | cons p t ih =>
    intro pr k
    rw [linkRecAux_cons]
    obtain ⟨hp, he⟩ := linkRecAux_acc env fuel t
      (processPackageRecursively env fuel p.1 p.2 0 pr).1
      ([] ++ (processPackageRecursively env fuel p.1 p.2 0 pr).2)
    rw [hp, he]
    have hrec := rec_expand_count env fuel p.1 p.2 0 pr k
    have hrest := ih (processPackageRecursively env fuel p.1 p.2 0 pr).1 k
    simp only [List.nil_append, List.count_append]
    omega

/-- Claim C8 (amended): the processed set is keyed by the string
`packageName + ":" + config.path`, where `config.path` is the *declared*
path — parent-resolved for nested dependencies, but kept exactly as written
for root packages.  Each such stored key is added to the set before any
recursion and passes the guard at most once, so across any nested
expansion — arbitrarily deep or wide, cyclic back-references included — each
stored key produces at most one `expand` event in the whole run.
Deduplication per `(name, resolved directory)` pair does NOT follow: a root
declared by a relative path and reached again through a back edge that names
its absolute directory is re-expanded under a second key. -/
theorem c8_expand_at_most_once_per_key :
    ∀ (env : Env) (fuel : Nat) (lps : List (String × PackageConfig)) (k : String),
      (linkRecursiveDependencies env fuel lps).2.count (RecEv.expand k) ≤ 1 := by
  intro env fuel lps k
  rw [linkRecursiveDependencies_eq]
  have h := linkRecAux_expand_count env fuel lps [] k
  rw [if_neg (List.not_mem_nil k)] at h
  by_cases hm : k ∈ (linkRecAux env fuel lps ([], [])).1
  · rw [if_pos hm] at h
    omega
  · rw [if_neg hm] at h
    omega

/-- Claim C8 (counterexample): with the root declaring `A` by the relative
path `a` (resolved directory `/proj/a`) and a nested chain `A → B → A` whose
back edge names `A` by the absolute path `/proj/a`, the run emits two
`expandDir` events for the same `(A, /proj/a)` pair — the guard stores the
raw declared paths, producing the two distinct keys `A:a` and `A:/proj/a` —
so the same resolved directory is expanded twice, refuting at-most-once
expansion per `(name, resolvedPath)`. -/
theorem c8_same_dir_expanded_twice_counterexample :
    (linkRecursiveDependencies envBack 4 [("A", ⟨"a", none, none⟩)]).2.count
        (RecEv.expandDir "A" "/proj/a") = 2 ∧
    RecEv.expand "A:a" ∈ (linkRecursiveDependencies envBack 4
        [("A", ⟨"a", none, none⟩)]).2 ∧
    RecEv.expand "A:/proj/a" ∈ (linkRecursiveDependencies envBack 4
        [("A", ⟨"a", none, none⟩)]).2 := by
  refine ⟨by decide, by decide, by decide⟩

theorem processDeps_building_depth (env : Env) (f : Nat) (n a : String) (d : Nat)
    (ih : ∀ (name : String) (config : PackageConfig) (depth : Nat)
      (processed : List String) (d2 : Nat) (dep par pa : String),
      RecEv.building d2 dep par pa ∈
        (processPackageRecursively env f name config depth processed).2 →
      depth + 1 ≤ d2) :
    ∀ (ds : List (String × PackageConfig)) (p : List String)
      (d2 : Nat) (dep par pa : String),
      RecEv.building d2 dep par pa ∈ (processDeps env f n a d ds (p, [])).2 →
      d + 1 ≤ d2 := by
  intro ds
  induction ds with
  | nil =>
    intro p d2 dep par pa h
    rw [processDeps_nil] at h
    simp at h
  | cons q t iht =>
    intro p d2 dep par pa h
    rw [processDeps_cons] at h
    obtain ⟨_, he⟩ := processDeps_acc env f n a d t
      ((processPackageRecursively env f q.1
        ⟨resolveNested env a q.2.path, q.2.buildCommand, q.2.watchPatterns⟩
        (d + 1) p).1)
      ([] ++ [RecEv.building (d + 1) q.1 n (resolveNested env a q.2.path),
        RecEv.linking (d + 1) q.1 n,
        RecEv.globalLink (resolveNested env a q.2.path) q.1,
        RecEv.linkInto a q.1] ++
        (processPackageRecursively env f q.1
          ⟨resolveNested env a q.2.path, q.2.buildCommand, q.2.watchPatterns⟩
          (d + 1) p).2)
    rw [he] at h
    simp only [List.nil_append, List.mem_append] at h
    rcases h with (h1 | h1) | h1
    · rcases List.mem_cons.mp h1 with h2 | h2
      · have := (RecEv.building.inj h2).1
        omega
      · simp at h2
    · have := ih q.1 ⟨resolveNested env a q.2.path, q.2.buildCommand,
        q.2.watchPatterns⟩ (d + 1) p d2 dep par pa h1
      omega
    · exact iht _ d2 dep par pa h1

theorem rec_building_depth (env : Env) : ∀ (fuel : Nat) (name : String)
    (config : PackageConfig) (depth : Nat) (processed : List String)
    (d2 : Nat) (dep par pa : String),
    RecEv.building d2 dep par pa ∈
      (processPackageRecursively env fuel name config depth processed).2 →
    depth + 1 ≤ d2 := by
  intro fuel
  induction fuel with
  | zero =>
    intro name config depth processed d2 dep par pa h
    rw [rec_zero] at h
    simp at h
  | succ f ih =>
    intro name config depth processed d2 dep par pa h
    by_cases hg : (name ++ ":" ++ config.path) ∈ processed
    · rw [rec_guard env f name config depth processed hg] at h
      simp at h
    · by_cases hc : env.fileExists (env.joinPath (if env.isAbsolute config.path then
        config.path else env.resolvePath env.cwd config.path) CONFIG_FILE)
      · by_cases hd : env.readConfigIn (if env.isAbsolute config.path then config.path
          else env.resolvePath env.cwd config.path) = []
        · rw [rec_nodeps env f name config depth processed hg hc hd] at h
          simp at h
        · rw [rec_main env f name config depth processed hg hc hd] at h
          obtain ⟨_, he⟩ := processDeps_acc env f name
            (if env.isAbsolute config.path then config.path
              else env.resolvePath env.cwd config.path) depth
            (env.readConfigIn (if env.isAbsolute config.path then config.path
              else env.resolvePath env.cwd config.path))
            (processed ++ [name ++ ":" ++ config.path])
            [RecEv.expand (name ++ ":" ++ config.path),
             RecEv.expandDir name (if env.isAbsolute config.path then config.path
               else env.resolvePath env.cwd config.path),
             RecEv.checking depth name,
             RecEv.found depth (env.readConfigIn (if env.isAbsolute config.path then
               config.path else env.resolvePath env.cwd config.path)).length name]
          rw [he] at h
          rcases List.mem_append.mp h with h1 | h1
          · simp at h1
          · exact processDeps_building_depth env f name
              (if env.isAbsolute config.path then config.path
                else env.resolvePath env.cwd config.path) depth ih
              (env.readConfigIn (if env.isAbsolute config.path then config.path
                else env.resolvePath env.cwd config.path))
              (processed ++ [name ++ ":" ++ config.path]) d2 dep par pa h1
      · rw [rec_noconfig env f name config depth processed hg
          (by simpa using hc)] at h
        simp at h

theorem processDeps_filter_building (env : Env) (f : Nat) (n a : String) (d : Nat) :
    ∀ (ds : List (String × PackageConfig)) (p : List String),
      (processDeps env f n a d ds (p, [])).2.filter (isBuildingAt (d + 1)) =
        ds.map (fun dep => RecEv.building (d + 1) dep.1 n
          (resolveNested env a dep.2.path)) := by
  intro ds
  induction ds with
  | nil => intro p; rw [processDeps_nil]; rfl
  | cons q t iht =>
    intro p
    rw [processDeps_cons]
    obtain ⟨_, he⟩ := processDeps_acc env f n a d t
      ((processPackageRecursively env f q.1
        ⟨resolveNested env a q.2.path, q.2.buildCommand, q.2.watchPatterns⟩
        (d + 1) p).1)
      ([] ++ [RecEv.building (d + 1) q.1 n (resolveNested env a q.2.path),
        RecEv.linking (d + 1) q.1 n,
        RecEv.globalLink (resolveNested env a q.2.path) q.1,
        RecEv.linkInto a q.1] ++
        (processPackageRecursively env f q.1
          ⟨resolveNested env a q.2.path, q.2.buildCommand, q.2.watchPatterns⟩
          (d + 1) p).2)
    rw [he]
    have hrecnil : ((processPackageRecursively env f q.1
        ⟨resolveNested env a q.2.path, q.2.buildCommand, q.2.watchPatterns⟩
        (d + 1) p).2).filter (isBuildingAt (d + 1)) = [] := by
      rw [List.filter_eq_nil_iff]
      intro e hmem
      cases e with
      | building d2 dep par pa =>
        have := rec_building_depth env f q.1
          ⟨resolveNested env a q.2.path, q.2.buildCommand, q.2.watchPatterns⟩
          (d + 1) p d2 dep par pa hmem
        simp only [isBuildingAt, decide_eq_true_eq]
        intro hfalse
        rw [hfalse] at this
        omega
      | expand k => simp [isBuildingAt]
      | expandDir nm rp => simp [isBuildingAt]
      | checking d2 nm => simp [isBuildingAt]
      | found d2 c nm => simp [isBuildingAt]
      | linking d2 dep par => simp [isBuildingAt]
      | globalLink pa dep => simp [isBuildingAt]
      | linkInto pa dep => simp [isBuildingAt]
    rw [List.nil_append, List.filter_append, List.filter_append, hrecnil,
      iht ((processPackageRecursively env f q.1
        ⟨resolveNested env a q.2.path, q.2.buildCommand, q.2.watchPatterns⟩
        (d + 1) p).1)]
    have hfour : ([RecEv.building (d + 1) q.1 n (resolveNested env a q.2.path),
        RecEv.linking (d + 1) q.1 n,
        RecEv.globalLink (resolveNested env a q.2.path) q.1,
        RecEv.linkInto a q.1] : List RecEv).filter (isBuildingAt (d + 1)) =
        [RecEv.building (d + 1) q.1 n (resolveNested env a q.2.path)] := by
      simp [List.filter, isBuildingAt]
    rw [hfour]
    simp

/-- Claim C9: Every nested dependency read from a linked package's own config
file is built with its declared path resolved against the *parent package's*
resolved directory (`resolveNested env absPath …`), never against the
original project root; absolute nested paths are kept as-is (the first branch
of `resolveNested`).  The per-level build events are exactly the nested
declarations mapped through that parent-relative resolution. -/
theorem c9_nested_paths_resolved_against_parent :
    ∀ (env : Env) (fuel : Nat) (packageName : String) (config : PackageConfig)
      (depth : Nat) (processed : List String),
      (packageName ++ ":" ++ config.path) ∉ processed →
      env.fileExists (env.joinPath (if env.isAbsolute config.path then config.path
        else env.resolvePath env.cwd config.path) CONFIG_FILE) = true →
      ((processPackageRecursively env (fuel + 1) packageName config depth
          processed).2.filter (isBuildingAt (depth + 1))) =
        (env.readConfigIn (if env.isAbsolute config.path then config.path
          else env.resolvePath env.cwd config.path)).map
          (fun dep => RecEv.building (depth + 1) dep.1 packageName
            (resolveNested env (if env.isAbsolute config.path then config.path
              else env.resolvePath env.cwd config.path) dep.2.path)) := by
  intro env fuel packageName config depth processed hg hc
  by_cases hd : env.readConfigIn (if env.isAbsolute config.path then config.path
      else env.resolvePath env.cwd config.path) = []
  · rw [rec_nodeps env fuel packageName config depth processed hg hc hd, hd]
    rfl
  · rw [rec_main env fuel packageName config depth processed hg hc hd]
    obtain ⟨_, he⟩ := processDeps_acc env fuel packageName
      (if env.isAbsolute config.path then config.path
        else env.resolvePath env.cwd config.path) depth
      (env.readConfigIn (if env.isAbsolute config.path then config.path
        else env.resolvePath env.cwd config.path))
      (processed ++ [packageName ++ ":" ++ config.path])
      [RecEv.expand (packageName ++ ":" ++ config.path),
       RecEv.expandDir packageName (if env.isAbsolute config.path then config.path
         else env.resolvePath env.cwd config.path),
       RecEv.checking depth packageName,
       RecEv.found depth (env.readConfigIn (if env.isAbsolute config.path then
         config.path else env.resolvePath env.cwd config.path)).length packageName]
    rw [he, List.filter_append]
    rw [processDeps_filter_building env fuel packageName
      (if env.isAbsolute config.path then config.path
        else env.resolvePath env.cwd config.path) depth
      (env.readConfigIn (if env.isAbsolute config.path then config.path
        else env.resolvePath env.cwd config.path))
      (processed ++ [packageName ++ ":" ++ config.path])]
    rfl

theorem c9_nested_paths_resolved_against_parent_witness :
    ((processPackageRecursively envNest 1 "root" ⟨"/root", none, none⟩ 0
        []).2.filter (isBuildingAt 1)) =
      [RecEv.building 1 "lib" "root" "/root/../lib"] := by
  have h := c9_nested_paths_resolved_against_parent envNest 0 "root"
    ⟨"/root", none, none⟩ 0 [] (by decide) (by decide)
  exact h.trans (by decide)

/-! ## Config-parser claims C5 and C6 -/

/-- Claim C5: (code bug evidence).  The claim — matching the README examples and
the tool's built-in help text — says `name = path [buildCmd] [watch:p1,p2]`
parses with `watchPatterns = [p1, p2]`.  The watch regex
`/\s+watch:\[(.*?)\](?:\s+|$)/` only matches the undocumented bare
` watch:[p1,p2]` form (no surrounding brackets), so the documented bracketed
annotation is silently dropped (`watchPatterns` stays unset), while the
undocumented form does produce the patterns. -/
theorem c5_watch_annotation_dropped :
    parsePackageLine "utils = ../utils [pnpm compile] [watch:src/a,src/b]" =
      some ("utils", ⟨"../utils", some "pnpm compile", none⟩) ∧
    parsePackageLine "utils = ../utils [pnpm compile] watch:[src/a,src/b]" =
      some ("utils", ⟨"../utils", some "pnpm compile", some ["src/a", "src/b"]⟩) := by
  decide

/-- Claim C6:  Config errors are never fatal (the embedding of `readConfig` is
total; the source wraps everything in `try`/`catch` returning `{}`): a
missing file degrades to no packages with two informational lines, an empty
file to no packages with one informational line, any content none of whose
lines parses degrades likewise, and a malformed line among good ones is
simply skipped while the good lines survive. -/
theorem c6_config_errors_not_fatal :
    readConfig none = ([], [(noConfigMsg, "yellow"), (configFormatMsg, "yellow")]) ∧
    readConfig (some "") = ([], [(noPackagesMsg, "yellow")]) ∧
    (∀ text : String,
      (((splitOnSep '\n' text.data).map String.mk).all
        (fun line => (parsePackageLine line).isNone)) = true →
      readConfig (some text) = ([], [(noPackagesMsg, "yellow")])) ∧
    readConfig (some "# note\n\nok = /p\nbad line no equals") =
      ([("ok", ⟨"/p", none, none⟩)], [(foundPackagesMsg 1, "green")]) := by
  refine ⟨by decide, by decide, ?_, by decide⟩
  intro text hall
  rw [List.all_eq_true] at hall
  have hfold : ∀ (ls : List String),
      (∀ l ∈ ls, (parsePackageLine l).isNone = true) →
      ls.foldl
        (fun acc line =>
          match parsePackageLine line with
          | some r => mapSet acc r.1 r.2
          | none => acc) ([] : List (String × PackageConfig)) = [] := by
    intro ls
    induction ls with
    | nil => intro _; rfl
    | cons l t ih =>
      intro hls
      rw [List.foldl_cons]
      have hnone : parsePackageLine l = none :=
        Option.isNone_iff_eq_none.mp (hls l (List.mem_cons_self ..))
      simp only [hnone]
      exact ih (fun x hx => hls x (List.mem_cons_of_mem _ hx))
  have hzero : parseConfigText text = [] := by
    unfold parseConfigText
    exact hfold _ (fun l hl => hall l (List.mem_of_mem_filter hl))
  simp only [readConfig, hzero]
  rfl

theorem c6_config_errors_not_fatal_witness :
    readConfig (some "not a valid line") = ([], [(noPackagesMsg, "yellow")]) :=
  c6_config_errors_not_fatal.2.2.1 "not a valid line" (by decide)

end LocalLinker
